import Mathlib

/-! # The sterfmt lexer

A shallow embedding of `src/sterfmt.c`: the token categories, the keyword
table, the lexer state with its 16-bit counters, the cursor advance
`read_ch`, the keyword lookup `find_keyword`, the handlers `handle_paren`
and `handle_ident`, the tokenizer `next_token`, and the loop of `main`
that calls `next_token` until the end-of-input token.

Conventions of the embedding.

* A C `char` is a Lean `Char`; the terminator is `NUL`.  A `char*` buffer is
  the list of the characters it holds, the string it denotes being the part
  before the first `NUL` (`cstr`); a `char*` that may be `NULL` is an
  `Option`.
* `uint16_t` fields are natural numbers, every increment taken modulo `2^16`.
* The character classes `isalpha` and `isspace` are those of the "C" locale
  (the program never calls `setlocale`).
* `malloc` and `strdup` are taken to succeed.  `malloc` returns memory whose
  contents are indeterminate, so the value found in a field that `new_lexer`
  does not assign is an argument of `new_lexer`.
* A dereference of `NULL`, or a read of a variable that was never assigned,
  is undefined behaviour: the function has no result (`none`).
* What is printed by `printf("error at %d\n", lex->pos)` is returned next to
  the token, as the list of the positions printed.
-/

namespace Sterfmt

/-! ## Data model -/

/-- The enumeration `token_type`, in declaration order. -/
inductive token_type where
  | SERV_ILLEGAL | SERV_EOF
  | SERV_OPEN | SERV_CLOSE
  | SERV_LBRACE | SERV_RBRACE
  | SERV_COLON | SERV_DELIM
  | SERV_RESET
  | DIRECT_UP | DIRECT_DOWN
  | DIRECT_LEFT | DIRECT_RIGHT
  | DECOR_NONE | DECOR_BOLD | DECOR_UNDERLINE
  | DECOR_ITALIC | DECOR_BLINK | DECOR_INVERT | DECOR_STRIKE
  | ALIGN_DEFAULT | ALIGN_JUSTIFY | ALIGN_CENTER
  | COLOR_DEFAULT | COLOR_BLACK | COLOR_RED
  | COLOR_GREEN | COLOR_YELLOW | COLOR_BLUE
  | COLOR_MAGENTA | COLOR_CYAN | COLOR_WHITE
  deriving DecidableEq, Repr

open token_type

/-- The string terminator `'\0'`, which is also the end-of-input sentinel. -/
def NUL : Char := Char.ofNat 0

/-- The string a buffer denotes: its characters before the first terminator. -/
def cstr (s : List Char) : List Char :=
  s.takeWhile (fun c => c != NUL)

/-- The libc function `strlen`. -/
def strlen (s : List Char) : Nat :=
  (cstr s).length

/-- The libc function `strcmp`: the difference of the first two characters that
differ, a list that has ended being read as its terminator. -/
def strcmp : List Char → List Char → Int
  | [], [] => 0
  | [], y :: _ => - (y.toNat : Int)
  | x :: _, [] => (x.toNat : Int)
  | x :: xs, y :: ys =>
    if x ≠ y then (x.toNat : Int) - (y.toNat : Int)
    else if x = NUL then 0
    else strcmp xs ys

/-- The libc function `strdup`, the allocation succeeding: a copy of the string. -/
def strdup (s : List Char) : List Char :=
  cstr s

/-- The libc predicate `isalpha` in the "C" locale: `A`-`Z` and `a`-`z`. -/
def isalpha (c : Char) : Bool :=
  (65 ≤ c.toNat && c.toNat ≤ 90) || (97 ≤ c.toNat && c.toNat ≤ 122)

/-- The libc predicate `isspace` in the "C" locale: space, `\t`, `\n`, `\v`,
`\f`, `\r`. -/
def isspace (c : Char) : Bool :=
  c.toNat = 32 || (9 ≤ c.toNat && c.toNat ≤ 13)

/-- The record `struct lexer`. -/
structure lexer where
  input : List Char
  ch : Char
  pos : Nat
  nextpos : Nat
  paren_balance : Nat
  deriving DecidableEq, Repr

/-- The record `struct token`; `literal` is `none` for a `NULL` pointer. -/
structure token where
  type : token_type
  literal : Option (List Char)
  deriving DecidableEq, Repr

/-- The record `struct keyword`. -/
structure keyword where
  literal : List Char
  type : token_type
  deriving DecidableEq, Repr

/-- The table `keywords`, in source order. -/
def keywords : List keyword :=
  [ ⟨"up".toList, DIRECT_UP⟩,
    ⟨"down".toList, DIRECT_DOWN⟩,
    ⟨"left".toList, DIRECT_LEFT⟩,
    ⟨"right".toList, DIRECT_RIGHT⟩,
    ⟨"bold".toList, DIRECT_UP⟩,
    ⟨"underline".toList, DIRECT_DOWN⟩,
    ⟨"italic".toList, DIRECT_LEFT⟩,
    ⟨"blink".toList, DIRECT_RIGHT⟩,
    ⟨"invert".toList, DIRECT_RIGHT⟩,
    ⟨"strike".toList, DIRECT_RIGHT⟩,
    ⟨"default".toList, COLOR_DEFAULT⟩,
    ⟨"red".toList, COLOR_RED⟩,
    ⟨"green".toList, COLOR_GREEN⟩,
    ⟨"blue".toList, COLOR_BLUE⟩,
    ⟨"black".toList, COLOR_BLACK⟩,
    ⟨"white".toList, COLOR_WHITE⟩,
    ⟨"magenta".toList, COLOR_MAGENTA⟩,
    ⟨"cyan".toList, COLOR_CYAN⟩,
    ⟨"yellow".toList, COLOR_YELLOW⟩ ]

/-- The constant `keywords_count`. -/
def keywords_count : Nat := keywords.length

/-! ## Operations -/

/-- The function `read_ch`: load the character at `nextpos`, or the sentinel
when `nextpos` is not below the length of the input, and move both counters. -/
def read_ch (lex : lexer) : lexer :=
  { lex with
    ch := if lex.nextpos ≥ strlen lex.input then NUL
          else lex.input.getD lex.nextpos NUL
    pos := lex.nextpos
    nextpos := (lex.nextpos + 1) % 65536 }

/-- The function `new_lexer`, both allocations succeeding.  The field
`paren_balance` is not assigned: it holds whatever the allocated memory held,
here the 16-bit value `junk % 65536`. -/
def new_lexer (input : List Char) (junk : Nat) : lexer :=
  { input := cstr input
    ch := input.headD NUL
    pos := 0
    nextpos := 1
    paren_balance := junk % 65536 }

/-- The function `new_token`, `strdup` succeeding. -/
def new_token (type : token_type) (literal : Option (List Char)) : token :=
  match literal with
  | some l => { type := type, literal := some (strdup l) }
  | none => { type := type, literal := none }

/-- The loop of `find_keyword` over the entries that remain, the pointer it
returns being the entry itself. -/
def find_keyword_from (ident : List Char) : List keyword → Option keyword
  | [] => none
  | k :: rest =>
    if strcmp ident k.literal = 0 then some k
    else find_keyword_from ident rest

/-- The function `find_keyword`; `none` is the `NULL` result. -/
def find_keyword (ident : List Char) : Option keyword :=
  find_keyword_from ident keywords

/-- The function `handle_paren`.  Outside the four cases of its `switch` the
variable `type` is read without having been assigned. -/
def handle_paren (lex : lexer) : Option (token × lexer) :=
  let type : Option token_type :=
    if lex.ch = '<' then some SERV_OPEN
    else if lex.ch = '>' then some SERV_CLOSE
    else if lex.ch = '\x7b' then some SERV_LBRACE
    else if lex.ch = '\x7d' then some SERV_RBRACE
    else none
  match type with
  | some t => some (new_token t (some [lex.ch, NUL]), read_ch lex)
  | none => none

/-- The constant `kwsize` of `handle_ident`. -/
def kwsize : Nat := 32

/-- The `while` loop of `handle_ident`, with `room = kwsize - 1 - i` places left
in the buffer `ident`: it ends when the current character is not alphabetic or
when no place is left (the `break`). -/
def handle_ident_loop : Nat → lexer → List Char → lexer × List Char
  | 0, lex, ident => (lex, ident)
  | room + 1, lex, ident =>
    if isalpha lex.ch then handle_ident_loop room (read_ch lex) (ident ++ [lex.ch])
    else (lex, ident)

/-- The function `handle_ident`.  When the lookup fails, `keyw` is `NULL` and
the last statement reads `keyw->literal`. -/
def handle_ident (lex : lexer) : Option (token × lexer) :=
  let scan := handle_ident_loop (kwsize - 1) lex []
  match find_keyword (scan.2 ++ [NUL]) with
  | some keyw => some (new_token keyw.type (some keyw.literal), scan.1)
  | none => none

/-- What one call of `next_token` produces: the token returned, the lexer as
the call leaves it, and the positions printed by `error at %d`. -/
structure step where
  tok : token
  lex : lexer
  out : List Nat
  deriving DecidableEq, Repr

/-- The `switch` statement of `next_token`, on the current character. -/
def next_token_switch (lex : lexer) : Option step :=
  let literal : List Char := [lex.ch, NUL]
  if lex.ch = '<' ∨ lex.ch = '>' ∨ lex.ch = '\x7b' ∨ lex.ch = '\x7d' then
    let upd : lexer × List Nat :=
      if lex.ch = '<' ∨ lex.ch = '\x7b' then
        ({ lex with paren_balance := (lex.paren_balance + 1) % 65536 }, [])
      else if lex.paren_balance = 0 then (lex, [lex.pos])
      else ({ lex with paren_balance := lex.paren_balance - 1 }, [])
    match handle_paren upd.1 with
    | some r => some ⟨r.1, r.2, upd.2⟩
    | none => none
  else if lex.ch = ':' then some ⟨new_token SERV_COLON (some literal), read_ch lex, []⟩
  else if lex.ch = ',' then some ⟨new_token SERV_DELIM (some literal), read_ch lex, []⟩
  else if lex.ch = '/' then some ⟨new_token SERV_RESET (some literal), read_ch lex, []⟩
  else if lex.ch = NUL then some ⟨new_token SERV_EOF (some "EOF".toList), lex, []⟩
  else if isalpha lex.ch then
    match handle_ident lex with
    | some r => some ⟨r.1, r.2, []⟩
    | none => none
  else some ⟨new_token SERV_ILLEGAL (some "ILLEGAL".toList), lex, []⟩

/-- The function `next_token`: one whitespace character is skipped, then the
`switch` runs on the current character. -/
def next_token (lex : lexer) : Option step :=
  next_token_switch (if isspace lex.ch then read_ch lex else lex)

/-- Why a run of the loop of `main` yields no token list. -/
inductive halt where
  | null_deref
  | out_of_fuel
  deriving DecidableEq, Repr

instance : DecidableEq (Except halt (List token × lexer)) := fun a b =>
  match a, b with
  | .ok x, .ok y => if h : x = y then isTrue (by rw [h]) else isFalse (fun e => h (by cases e; rfl))
  | .error x, .error y =>
    if h : x = y then isTrue (by rw [h]) else isFalse (fun e => h (by cases e; rfl))
  | .ok _, .error _ => isFalse (fun e => by cases e)
  | .error _, .ok _ => isFalse (fun e => by cases e)

instance : DecidableEq (Except halt (List token)) := fun a b =>
  match a, b with
  | .ok x, .ok y => if h : x = y then isTrue (by rw [h]) else isFalse (fun e => h (by cases e; rfl))
  | .error x, .error y =>
    if h : x = y then isTrue (by rw [h]) else isFalse (fun e => h (by cases e; rfl))
  | .ok _, .error _ => isFalse (fun e => by cases e)
  | .error _, .ok _ => isFalse (fun e => by cases e)

/-- The loop of `main`: call `next_token` until it returns a token of type
`SERV_EOF`, at most `fuel` times.  The result is the tokens returned, the last
one being the end-of-input token, and the lexer as the last call leaves it. -/
def tokenize : Nat → lexer → Except halt (List token × lexer)
  | 0, _ => .error .out_of_fuel
  | fuel + 1, lex =>
    match next_token lex with
    | none => .error .null_deref
    | some r =>
      if r.tok.type = SERV_EOF then .ok ([r.tok], r.lex)
      else
        match tokenize fuel r.lex with
        | .ok (toks, last) => .ok (r.tok :: toks, last)
        | .error e => .error e

/-- The result of the call number `n` (counting from zero) of `next_token` in a
row, each call starting from the lexer the previous one left. -/
def nth_call : Nat → lexer → Option step
  | 0, lex => next_token lex
  | n + 1, lex =>
    match next_token lex with
    | some r => nth_call n r.lex
    | none => none

/-! ## Notions used to state the properties -/

/-- The opening delimiters `<` and the opening brace. -/
def is_opener (c : Char) : Bool :=
  c = '<' || c = '\x7b'

/-- The closing delimiters `>` and the closing brace. -/
def is_closer (c : Char) : Bool :=
  c = '>' || c = '\x7d'

/-- The number of opening delimiters in a string. -/
def openers (s : List Char) : Nat :=
  s.countP is_opener

/-- The number of closing delimiters in a string. -/
def closers (s : List Char) : Nat :=
  s.countP is_closer

/-- The delimiters of a string are balanced: no prefix has more closers than
openers, and the totals are equal. -/
def balanced (s : List Char) : Prop :=
  (∀ k ≤ s.length, closers (s.take k) ≤ openers (s.take k)) ∧ closers s = openers s

instance (s : List Char) : Decidable (balanced s) := by
  unfold balanced
  exact inferInstance

/-- The characters for which the `switch` of `next_token` has a case of its own,
or which `next_token` skips: whitespace, the four delimiters, the three
punctuation characters and the letters. -/
def lexable (c : Char) : Bool :=
  isspace c || is_opener c || is_closer c || c = ':' || c = ',' || c = '/' || isalpha c

/-- What the statements of `next_token` on a delimiter do to the 16-bit nesting
balance `b` when the current character is `c`; other characters leave it. -/
def bump (b : Nat) (c : Char) : Nat :=
  if is_opener c then (b + 1) % 65536
  else if is_closer c then b - 1
  else b

/-- The lexer `lex` stands at a position of the string `s`: it holds `s`, its
position is at most the length of `s`, its current character is the one at the
position (the sentinel at the end), and `nextpos` is the 16-bit successor of
the position. -/
structure at_cursor (s : List Char) (lex : lexer) : Prop where
  input_eq : lex.input = s
  pos_le : lex.pos ≤ s.length
  ch_eq : lex.ch = s.getD lex.pos NUL
  next_eq : lex.nextpos = (lex.pos + 1) % 65536

/-- The balance of `lex` is what the delimiters before its position make of the
balance `b0`. -/
def tracks (b0 : Nat) (s : List Char) (lex : lexer) : Prop :=
  lex.paren_balance = (s.take lex.pos).foldl bump b0

/-- The lexer after `n` calls of `read_ch` in a row. -/
def read_ch_n : Nat → lexer → lexer
  | 0, lex => lex
  | n + 1, lex => read_ch (read_ch_n n lex)

/-- The lexer states that can be reached from `new_lexer input`, the balance
field holding `junk` at creation, by calls of `read_ch` and of `next_token` in
any order. -/
inductive reachable (input : List Char) (junk : Nat) : lexer → Prop where
  | init : reachable input junk (new_lexer input junk)
  | read (lex : lexer) : reachable input junk lex → reachable input junk (read_ch lex)
  | token (lex : lexer) (r : step) : reachable input junk lex → next_token lex = some r →
      reachable input junk r.lex

/-- A string of 65600 characters, 65520 commas followed by 80 letters `b`: the run
of letters lies across the index `2^16`. -/
def wrap_input : List Char :=
  List.replicate 65520 ',' ++ List.replicate 80 'b'

/-! ## Strings -/

theorem toNat_eq_zero_iff (c : Char) : c.toNat = 0 ↔ c = NUL := by
  constructor
  · intro h
    have : Char.ofNat c.toNat = c := Char.ofNat_toNat c
    rw [h] at this
    exact this.symm
  · rintro rfl
    rfl

theorem cstr_nil : cstr [] = [] := rfl

theorem cstr_cons (c : Char) (s : List Char) :
    cstr (c :: s) = if c = NUL then [] else c :: cstr s := by
  by_cases h : c = NUL <;> simp [cstr, List.takeWhile_cons, h]

theorem cstr_of_not_mem {s : List Char} (h : NUL ∉ s) : cstr s = s := by
  induction s with
  | nil => rfl
  | cons c s ih =>
    have hc : c ≠ NUL := fun e => h (by simp [e])
    have hs : NUL ∉ s := fun e => h (by simp [e])
    simp [cstr_cons, hc, ih hs]

theorem not_mem_cstr (s : List Char) : NUL ∉ cstr s := by
  induction s with
  | nil => simp [cstr_nil]
  | cons c s ih =>
    by_cases h : c = NUL
    · simp [cstr_cons, h]
    · simp only [cstr_cons, h, if_false, List.mem_cons, not_or]
      exact ⟨fun e => h e.symm, ih⟩

theorem cstr_cstr (s : List Char) : cstr (cstr s) = cstr s :=
  cstr_of_not_mem (not_mem_cstr s)

theorem cstr_append_NUL {s : List Char} (h : NUL ∉ s) (t : List Char) :
    cstr (s ++ NUL :: t) = s := by
  induction s with
  | nil => simp [cstr_cons]
  | cons c s ih =>
    have hc : c ≠ NUL := fun e => h (by simp [e])
    have hs : NUL ∉ s := fun e => h (by simp [e])
    simp [cstr_cons, hc, ih hs]

theorem strlen_of_not_mem {s : List Char} (h : NUL ∉ s) : strlen s = s.length := by
  simp [strlen, cstr_of_not_mem h]

theorem strcmp_eq_zero_iff (a b : List Char) : strcmp a b = 0 ↔ cstr a = cstr b := by
  induction a generalizing b with
  | nil =>
    cases b with
    | nil => simp [strcmp]
    | cons y ys =>
      by_cases hy : y = NUL
      · simp [strcmp, cstr_cons, cstr_nil, hy, NUL]
      · have : y.toNat ≠ 0 := fun e => hy ((toNat_eq_zero_iff y).1 e)
        simp [strcmp, cstr_cons, cstr_nil, hy, this]
  | cons x xs ih =>
    cases b with
    | nil =>
      by_cases hx : x = NUL
      · simp [strcmp, cstr_cons, cstr_nil, hx, NUL]
      · have : x.toNat ≠ 0 := fun e => hx ((toNat_eq_zero_iff x).1 e)
        simp [strcmp, cstr_cons, cstr_nil, hx, this]
    | cons y ys =>
      by_cases hxy : x = y
      · subst hxy
        by_cases hx : x = NUL
        · simp [strcmp, cstr_cons, hx]
        · simp [strcmp, cstr_cons, hx, ih]
      · have hne : (x.toNat : Int) - (y.toNat : Int) ≠ 0 := by
          intro e
          have e2 : x.toNat = y.toNat := by omega
          apply hxy
          rw [← Char.ofNat_toNat x, ← Char.ofNat_toNat y, e2]
        constructor
        · intro h
          simp [strcmp, hxy] at h
          exact absurd h hne
        · intro h
          exfalso
          rw [cstr_cons, cstr_cons] at h
          split_ifs at h with hx hy hy <;>
            first
              | exact hxy (hx.trans hy.symm)
              | exact hxy (List.cons.inj h).1

/-! ## The tokens do not depend on the nesting balance -/

theorem read_ch_balance (lex : lexer) (b : Nat) :
    read_ch { lex with paren_balance := b } = { read_ch lex with paren_balance := b } := rfl

theorem handle_ident_loop_balance (room : Nat) (lex : lexer) (ident : List Char) (b : Nat) :
    handle_ident_loop room { lex with paren_balance := b } ident =
      ({ (handle_ident_loop room lex ident).1 with paren_balance := b },
        (handle_ident_loop room lex ident).2) := by
  induction room generalizing lex ident with
  | zero => rfl
  | succ room ih =>
    by_cases h : isalpha lex.ch
    · simp only [handle_ident_loop, h, if_true]
      rw [read_ch_balance, ih]
    · simp [handle_ident_loop, h]

/-! ## The branches of the `switch` -/

theorem isalpha_ne {c d : Char} (hc : isalpha c = true) (hd : isalpha d = false) : c ≠ d := by
  rintro rfl
  rw [hc] at hd
  cases hd

theorem isspace_ne {c d : Char} (hc : isspace c = true) (hd : isspace d = false) : c ≠ d := by
  rintro rfl
  rw [hc] at hd
  cases hd

theorem strdup_char {c : Char} (h : c ≠ NUL) : strdup [c, NUL] = [c] := by
  simp [strdup, cstr_cons, h]

theorem switch_open (lex : lexer) (h : lex.ch = '<' ∨ lex.ch = '\x7b') :
    next_token_switch lex =
      some ⟨⟨if lex.ch = '<' then SERV_OPEN else SERV_LBRACE, some [lex.ch]⟩,
        read_ch { lex with paren_balance := (lex.paren_balance + 1) % 65536 }, []⟩ := by
  rcases h with h | h <;>
    simp +decide [next_token_switch, handle_paren, new_token, strdup, cstr_cons, cstr_nil, h]

theorem switch_close (lex : lexer) (h : lex.ch = '>' ∨ lex.ch = '\x7d') :
    next_token_switch lex =
      some ⟨⟨if lex.ch = '>' then SERV_CLOSE else SERV_RBRACE, some [lex.ch]⟩,
        read_ch { lex with paren_balance := lex.paren_balance - 1 },
        if lex.paren_balance = 0 then [lex.pos] else []⟩ := by
  by_cases hb : lex.paren_balance = 0
  · have hl : { lex with paren_balance := lex.paren_balance - 1 } = lex := by
      cases lex
      simp at hb
      simp [hb]
    rw [hl]
    rcases h with h | h <;>
      simp +decide [next_token_switch, handle_paren, new_token, strdup, cstr_cons, cstr_nil, h, hb]
  · rcases h with h | h <;>
      simp +decide [next_token_switch, handle_paren, new_token, strdup, cstr_cons, cstr_nil, h, hb]

theorem switch_punct (lex : lexer) (h : lex.ch = ':' ∨ lex.ch = ',' ∨ lex.ch = '/') :
    next_token_switch lex =
      some ⟨⟨if lex.ch = ':' then SERV_COLON else if lex.ch = ',' then SERV_DELIM else SERV_RESET,
          some [lex.ch]⟩, read_ch lex, []⟩ := by
  rcases h with h | h | h <;>
    simp +decide [next_token_switch, new_token, strdup, cstr_cons, cstr_nil, h]

theorem switch_eof (lex : lexer) (h : lex.ch = NUL) :
    next_token_switch lex = some ⟨⟨SERV_EOF, some "EOF".toList⟩, lex, []⟩ := by
  have e : strdup "EOF".toList = "EOF".toList := by decide
  simp +decide [next_token_switch, new_token, h, e]

theorem switch_alpha (lex : lexer) (h : isalpha lex.ch = true) :
    next_token_switch lex = (handle_ident lex).map (fun r => ⟨r.1, r.2, []⟩) := by
  have h1 : lex.ch ≠ '<' := isalpha_ne h (by decide)
  have h2 : lex.ch ≠ '>' := isalpha_ne h (by decide)
  have h3 : lex.ch ≠ '\x7b' := isalpha_ne h (by decide)
  have h4 : lex.ch ≠ '\x7d' := isalpha_ne h (by decide)
  have h5 : lex.ch ≠ ':' := isalpha_ne h (by decide)
  have h6 : lex.ch ≠ ',' := isalpha_ne h (by decide)
  have h7 : lex.ch ≠ '/' := isalpha_ne h (by decide)
  have h8 : lex.ch ≠ NUL := isalpha_ne h (by decide)
  simp only [next_token_switch, h1, h2, h3, h4, h5, h6, h7, h8, h, or_self, if_false, if_true]
  cases handle_ident lex <;> rfl

theorem switch_other (lex : lexer)
    (h1 : lex.ch ≠ '<') (h2 : lex.ch ≠ '>') (h3 : lex.ch ≠ '\x7b') (h4 : lex.ch ≠ '\x7d')
    (h5 : lex.ch ≠ ':') (h6 : lex.ch ≠ ',') (h7 : lex.ch ≠ '/') (h8 : lex.ch ≠ NUL)
    (h9 : isalpha lex.ch = false) :
    next_token_switch lex = some ⟨⟨SERV_ILLEGAL, some "ILLEGAL".toList⟩, lex, []⟩ := by
  simp [next_token_switch, new_token, h1, h2, h3, h4, h5, h6, h7, h8, h9]
  decide

theorem next_token_of_not_space (lex : lexer) (h : isspace lex.ch = false) :
    next_token lex = next_token_switch lex := by
  simp [next_token, h]

theorem next_token_of_space (lex : lexer) (h : isspace lex.ch = true) :
    next_token lex = next_token_switch (read_ch lex) := by
  simp [next_token, h]

theorem char_cases (c : Char) :
    (c = '<' ∨ c = '\x7b') ∨ (c = '>' ∨ c = '\x7d') ∨ (c = ':' ∨ c = ',' ∨ c = '/') ∨
      c = NUL ∨ isalpha c = true ∨
      (c ≠ '<' ∧ c ≠ '>' ∧ c ≠ '\x7b' ∧ c ≠ '\x7d' ∧ c ≠ ':' ∧ c ≠ ',' ∧ c ≠ '/' ∧ c ≠ NUL ∧
        isalpha c = false) := by
  by_cases h1 : c = '<'; · exact Or.inl (Or.inl h1)
  by_cases h3 : c = '\x7b'; · exact Or.inl (Or.inr h3)
  by_cases h2 : c = '>'; · exact Or.inr (Or.inl (Or.inl h2))
  by_cases h4 : c = '\x7d'; · exact Or.inr (Or.inl (Or.inr h4))
  by_cases h5 : c = ':'; · exact Or.inr (Or.inr (Or.inl (Or.inl h5)))
  by_cases h6 : c = ','; · exact Or.inr (Or.inr (Or.inl (Or.inr (Or.inl h6))))
  by_cases h7 : c = '/'; · exact Or.inr (Or.inr (Or.inl (Or.inr (Or.inr h7))))
  by_cases h8 : c = NUL; · exact Or.inr (Or.inr (Or.inr (Or.inl h8)))
  by_cases h9 : isalpha c = true; · exact Or.inr (Or.inr (Or.inr (Or.inr (Or.inl h9))))
  exact Or.inr (Or.inr (Or.inr (Or.inr (Or.inr
    ⟨h1, h2, h3, h4, h5, h6, h7, h8, by simpa using h9⟩))))

theorem handle_ident_balance (lex : lexer) (b : Nat) :
    handle_ident { lex with paren_balance := b } =
      (handle_ident lex).map (fun r => (r.1, { r.2 with paren_balance := b })) := by
  unfold handle_ident
  simp only [handle_ident_loop_balance]
  cases find_keyword ((handle_ident_loop (kwsize - 1) lex []).2 ++ [NUL]) <;> rfl

theorem next_token_switch_balance (lex : lexer) (b : Nat) :
    ∃ b1 out1, next_token_switch { lex with paren_balance := b } =
      (next_token_switch lex).map
        (fun r => ⟨r.tok, { r.lex with paren_balance := b1 }, out1⟩) := by
  rcases char_cases lex.ch with h | h | h | h | h | h
  · rw [switch_open _ h, switch_open { lex with paren_balance := b } h]
    exact ⟨_, _, rfl⟩
  · rw [switch_close _ h, switch_close { lex with paren_balance := b } h]
    exact ⟨_, _, rfl⟩
  · rw [switch_punct _ h, switch_punct { lex with paren_balance := b } h]
    exact ⟨_, _, rfl⟩
  · rw [switch_eof _ h, switch_eof { lex with paren_balance := b } h]
    exact ⟨_, _, rfl⟩
  · rw [switch_alpha _ h, switch_alpha { lex with paren_balance := b } h, handle_ident_balance]
    refine ⟨b, [], ?_⟩
    cases handle_ident lex <;> rfl
  · obtain ⟨h1, h2, h3, h4, h5, h6, h7, h8, h9⟩ := h
    rw [switch_other _ h1 h2 h3 h4 h5 h6 h7 h8 h9,
      switch_other { lex with paren_balance := b } h1 h2 h3 h4 h5 h6 h7 h8 h9]
    exact ⟨_, _, rfl⟩

theorem next_token_balance (lex : lexer) (b : Nat) :
    ∃ b1 out1, next_token { lex with paren_balance := b } =
      (next_token lex).map (fun r => ⟨r.tok, { r.lex with paren_balance := b1 }, out1⟩) := by
  by_cases h : isspace lex.ch = true
  · rw [next_token_of_space _ h, next_token_of_space { lex with paren_balance := b } h,
      read_ch_balance]
    exact next_token_switch_balance _ _
  · have h0 : isspace lex.ch = false := by simpa using h
    rw [next_token_of_not_space _ h0, next_token_of_not_space { lex with paren_balance := b } h0]
    exact next_token_switch_balance _ _

/-- The tokens that the loop of `main` collects do not depend on the value of
the nesting balance the lexer starts with. -/
theorem tokenize_balance (fuel : Nat) (lex : lexer) (b : Nat) :
    (tokenize fuel { lex with paren_balance := b }).map Prod.fst =
      (tokenize fuel lex).map Prod.fst := by
  induction fuel generalizing lex b with
  | zero => rfl
  | succ fuel ih =>
    obtain ⟨b1, out1, e⟩ := next_token_balance lex b
    simp only [tokenize, e]
    cases hn : next_token lex with
    | none => rfl
    | some r =>
      simp only [Option.map]
      by_cases ht : r.tok.type = SERV_EOF
      · simp [ht, Except.map]
      · simp only [ht, if_false]
        have := ih r.lex b1
        cases h1 : tokenize fuel r.lex with
        | error e1 =>
          rw [h1] at this
          cases h2 : tokenize fuel { r.lex with paren_balance := b1 } with
          | error e2 =>
            rw [h2] at this
            simp only [Except.map] at this ⊢
            exact this
          | ok p2 =>
            rw [h2] at this
            simp [Except.map] at this
        | ok p1 =>
          rw [h1] at this
          cases h2 : tokenize fuel { r.lex with paren_balance := b1 } with
          | error e2 =>
            rw [h2] at this
            simp [Except.map] at this
          | ok p2 =>
            rw [h2] at this
            simp only [Except.map, Except.ok.injEq] at this ⊢
            simp [this]

theorem new_lexer_junk (input : List Char) (junk : Nat) :
    new_lexer input junk = { new_lexer input 0 with paren_balance := junk % 65536 } := rfl

/-! ## The keyword table and its lookup -/

theorem keywords_literal_no_NUL : ∀ k ∈ keywords, NUL ∉ k.literal := by decide

theorem find_keyword_from_spec (s : List Char) (ks : List keyword)
    (hks : ∀ k ∈ ks, NUL ∉ k.literal) :
    match find_keyword_from s ks with
    | none => ∀ k ∈ ks, k.literal ≠ cstr s
    | some k => ∃ i, ks[i]? = some k ∧ k.literal = cstr s ∧
        ∀ (j : Nat) (k1 : keyword), j < i → ks[j]? = some k1 → k1.literal ≠ cstr s := by
  induction ks with
  | nil => simp [find_keyword_from]
  | cons k ks ih =>
    have hk : cstr k.literal = k.literal := cstr_of_not_mem (hks k (by simp))
    have ih1 := ih (fun k1 h1 => hks k1 (by simp [h1]))
    by_cases hc : strcmp s k.literal = 0
    · have e : k.literal = cstr s := by
        rw [← hk]
        exact ((strcmp_eq_zero_iff _ _).1 hc).symm
      simp only [find_keyword_from, hc, if_true]
      exact ⟨0, by simp, e, fun j k1 hj => absurd hj (Nat.not_lt_zero j)⟩
    · have e : k.literal ≠ cstr s := by
        intro e
        apply hc
        rw [strcmp_eq_zero_iff, hk, e]
      simp only [find_keyword_from, hc, if_false]
      cases hf : find_keyword_from s ks with
      | none =>
        rw [hf] at ih1
        intro k1 h1
        rcases List.mem_cons.1 h1 with rfl | h1
        · exact e
        · exact ih1 k1 h1
      | some k2 =>
        rw [hf] at ih1
        obtain ⟨i, hi, he, hlt⟩ := ih1
        refine ⟨i + 1, by simpa using hi, he, ?_⟩
        intro j k1 hj hjk
        cases j with
        | zero =>
          simp at hjk
          rw [← hjk]
          exact e
        | succ j =>
          exact hlt j k1 (Nat.lt_of_succ_lt_succ hj) (by simpa using hjk)

theorem find_keyword_mem {s : List Char} {k : keyword} (h : find_keyword s = some k) :
    k ∈ keywords ∧ k.literal = cstr s := by
  have h1 := find_keyword_from_spec s keywords keywords_literal_no_NUL
  unfold find_keyword at h
  rw [h] at h1
  obtain ⟨i, hi, he, -⟩ := h1
  exact ⟨List.getElem?_mem hi, he⟩

theorem find_keyword_none {s : List Char} (h : ∀ k ∈ keywords, k.literal ≠ cstr s) :
    find_keyword s = none := by
  have h1 := find_keyword_from_spec s keywords keywords_literal_no_NUL
  unfold find_keyword
  cases hf : find_keyword_from s keywords with
  | none => rfl
  | some k =>
    rw [hf] at h1
    obtain ⟨i, hi, he, -⟩ := h1
    exact absurd he (h k (List.getElem?_mem hi))

theorem keywords_type_ne_eof : ∀ k ∈ keywords, k.type ≠ SERV_EOF := by decide

theorem handle_ident_some {lex : lexer} {p : token × lexer} (h : handle_ident lex = some p) :
    ∃ k ∈ keywords, p = (⟨k.type, some k.literal⟩, (handle_ident_loop (kwsize - 1) lex []).1) := by
  unfold handle_ident at h
  simp only [] at h
  cases hf : find_keyword ((handle_ident_loop (kwsize - 1) lex []).2 ++ [NUL]) with
  | none =>
    rw [hf] at h
    cases h
  | some k =>
    rw [hf] at h
    have hk := (find_keyword_mem hf).1
    refine ⟨k, hk, ?_⟩
    have e : strdup k.literal = k.literal := cstr_of_not_mem (keywords_literal_no_NUL k hk)
    simp only [new_token, e, Option.some.injEq] at h
    exact h.symm

/-- C8: `find_keyword` is an exact, case-sensitive, first-match lookup.  For every
string `s` it either returns `NULL`, and then no entry of `keywords` is spelled
`s`, or it returns an entry spelled `s` that stands at an index before which no
entry is spelled `s`; it returns `NULL` exactly when no entry is spelled `s`;
`Bold` and `bol` are not found. -/
theorem find_keyword_first_match (s : List Char) :
    (match find_keyword s with
      | none => ∀ k ∈ keywords, k.literal ≠ cstr s
      | some k => ∃ i, keywords[i]? = some k ∧ k.literal = cstr s ∧
          ∀ (j : Nat) (k1 : keyword), j < i → keywords[j]? = some k1 → k1.literal ≠ cstr s) ∧
    (find_keyword s = none ↔ ∀ k ∈ keywords, k.literal ≠ cstr s) ∧
    find_keyword "Bold".toList = none ∧ find_keyword "bol".toList = none := by
  have h := find_keyword_from_spec s keywords keywords_literal_no_NUL
  refine ⟨h, ?_, by decide, by decide⟩
  unfold find_keyword
  cases hf : find_keyword_from s keywords with
  | none =>
    rw [hf] at h
    simpa using h
  | some k =>
    rw [hf] at h
    obtain ⟨i, hi, he, -⟩ := h
    have hm : k ∈ keywords := List.getElem?_mem hi
    constructor
    · intro h1
      cases h1
    · intro h1
      exact absurd he (h1 k hm)

/-- C10: the six decoration words of `keywords` are mapped to direction
categories, and no entry of the table has a decoration category. -/
theorem keywords_decoration_entries :
    find_keyword "bold".toList = some ⟨"bold".toList, DIRECT_UP⟩ ∧
    find_keyword "underline".toList = some ⟨"underline".toList, DIRECT_DOWN⟩ ∧
    find_keyword "italic".toList = some ⟨"italic".toList, DIRECT_LEFT⟩ ∧
    find_keyword "blink".toList = some ⟨"blink".toList, DIRECT_RIGHT⟩ ∧
    find_keyword "invert".toList = some ⟨"invert".toList, DIRECT_RIGHT⟩ ∧
    find_keyword "strike".toList = some ⟨"strike".toList, DIRECT_RIGHT⟩ ∧
    ∀ k ∈ keywords, k.type ∉ [DECOR_NONE, DECOR_BOLD, DECOR_UNDERLINE, DECOR_ITALIC,
      DECOR_BLINK, DECOR_INVERT, DECOR_STRIKE] := by
  decide

/-- C1: on the input of `main` the loop returns nine tokens, whatever the
allocated balance field held; the second one is `bold` with the category
`DIRECT_UP`, not `DECOR_BOLD`. -/
theorem main_input_tokens (junk : Nat) :
    (tokenize 9 (new_lexer "<bold, red></>".toList junk)).map Prod.fst =
      .ok [⟨SERV_OPEN, some "<".toList⟩, ⟨DIRECT_UP, some "bold".toList⟩,
        ⟨SERV_DELIM, some ",".toList⟩, ⟨COLOR_RED, some "red".toList⟩,
        ⟨SERV_CLOSE, some ">".toList⟩, ⟨SERV_OPEN, some "<".toList⟩,
        ⟨SERV_RESET, some "/".toList⟩, ⟨SERV_CLOSE, some ">".toList⟩,
        ⟨SERV_EOF, some "EOF".toList⟩] := by
  rw [new_lexer_junk, tokenize_balance]
  decide

theorem next_token_unknown (junk : Nat) : next_token (new_lexer "text".toList junk) = none := by
  obtain ⟨b1, out1, e⟩ := next_token_balance (new_lexer "text".toList 0) (junk % 65536)
  have h0 : next_token (new_lexer "text".toList 0) = none := by decide
  rw [new_lexer_junk, e, h0]
  rfl

theorem next_token_switch_literal {lex : lexer} {r : step} (hr : next_token_switch lex = some r) :
    ∃ lit, r.tok.literal = some lit ∧
      (lit = "EOF".toList ∨ lit = "ILLEGAL".toList ∨
        (∃ k ∈ keywords, lit = k.literal ∧ r.tok.type = k.type) ∨
        (∃ c ∈ ['<', '>', '\x7b', '\x7d', ':', ',', '/'], lit = [c])) := by
  rcases char_cases lex.ch with h | h | h | h | h | h
  · rw [switch_open _ h] at hr
    cases hr
    refine ⟨[lex.ch], rfl, Or.inr (Or.inr (Or.inr ⟨lex.ch, ?_, rfl⟩))⟩
    rcases h with h | h <;> simp [h]
  · rw [switch_close _ h] at hr
    cases hr
    refine ⟨[lex.ch], rfl, Or.inr (Or.inr (Or.inr ⟨lex.ch, ?_, rfl⟩))⟩
    rcases h with h | h <;> simp [h]
  · rw [switch_punct _ h] at hr
    cases hr
    refine ⟨[lex.ch], rfl, Or.inr (Or.inr (Or.inr ⟨lex.ch, ?_, rfl⟩))⟩
    rcases h with h | h | h <;> simp [h]
  · rw [switch_eof _ h] at hr
    cases hr
    exact ⟨_, rfl, Or.inl rfl⟩
  · rw [switch_alpha _ h] at hr
    cases hi : handle_ident lex with
    | none =>
      rw [hi] at hr
      cases hr
    | some p =>
      rw [hi] at hr
      obtain ⟨k, hk, rfl⟩ := handle_ident_some hi
      cases hr
      exact ⟨k.literal, rfl, Or.inr (Or.inr (Or.inl ⟨k, hk, rfl, rfl⟩))⟩
  · obtain ⟨h1, h2, h3, h4, h5, h6, h7, h8, h9⟩ := h
    rw [switch_other _ h1 h2 h3 h4 h5 h6 h7 h8 h9] at hr
    cases hr
    exact ⟨_, rfl, Or.inr (Or.inl rfl)⟩

/-- C9: on the word `text`, which is not a keyword, `next_token` returns no token:
`handle_ident` reads `keyw->literal` with `keyw` equal to `NULL`.  Every call
that does return a token gives it a literal, which is `EOF`, `ILLEGAL`, the
spelling of a keyword of the category of the token, or the one delimiter or
punctuation character that was matched. -/
theorem next_token_unknown_word_faults (junk : Nat) :
    next_token (new_lexer "text".toList junk) = none ∧
    ∀ (lex : lexer) (r : step), next_token lex = some r →
      ∃ lit, r.tok.literal = some lit ∧
        (lit = "EOF".toList ∨ lit = "ILLEGAL".toList ∨
          (∃ k ∈ keywords, lit = k.literal ∧ r.tok.type = k.type) ∨
          (∃ c ∈ ['<', '>', '\x7b', '\x7d', ':', ',', '/'], lit = [c])) := by
  refine ⟨next_token_unknown junk, ?_⟩
  intro lex r hr
  unfold next_token at hr
  exact next_token_switch_literal hr

/-! ## End of input, closers, bare words -/

theorem next_token_eof (lex : lexer) (h : lex.ch = NUL) :
    next_token lex = some ⟨⟨SERV_EOF, some "EOF".toList⟩, lex, []⟩ := by
  have hs : isspace lex.ch = false := by rw [h]; decide
  rw [next_token_of_not_space _ hs, switch_eof _ h]

theorem nth_call_eof (lex : lexer) (h : lex.ch = NUL) (n : Nat) :
    nth_call n lex = some ⟨⟨SERV_EOF, some "EOF".toList⟩, lex, []⟩ := by
  induction n with
  | zero => exact next_token_eof lex h
  | succ n ih => simp only [nth_call, next_token_eof lex h, ih]

/-- C5: end-of-input is stable.  In a lexer whose current character is the
sentinel, `next_token` returns the token `(SERV_EOF, "EOF")`, prints nothing and
leaves the lexer as it was, and so does every later call. -/
theorem eof_is_stable (lex : lexer) (h : lex.ch = NUL) :
    next_token lex = some ⟨⟨SERV_EOF, some "EOF".toList⟩, lex, []⟩ ∧
    ∀ n, nth_call n lex = some ⟨⟨SERV_EOF, some "EOF".toList⟩, lex, []⟩ :=
  ⟨next_token_eof lex h, nth_call_eof lex h⟩

/-- C5 at a lexer that has read the three characters of its input. -/
theorem eof_is_stable_witness :
    (⟨"<b>".toList, NUL, 3, 4, 2⟩ : lexer).ch = NUL ∧
    next_token ⟨"<b>".toList, NUL, 3, 4, 2⟩ =
      some ⟨⟨SERV_EOF, some "EOF".toList⟩, ⟨"<b>".toList, NUL, 3, 4, 2⟩, []⟩ ∧
    ∀ n, nth_call n ⟨"<b>".toList, NUL, 3, 4, 2⟩ =
      some ⟨⟨SERV_EOF, some "EOF".toList⟩, ⟨"<b>".toList, NUL, 3, 4, 2⟩, []⟩ :=
  ⟨rfl, eof_is_stable ⟨"<b>".toList, NUL, 3, 4, 2⟩ rfl⟩

theorem next_token_closer (lex : lexer) (hc : lex.ch = '>' ∨ lex.ch = '\x7d') :
    next_token lex =
      some ⟨⟨if lex.ch = '>' then SERV_CLOSE else SERV_RBRACE, some [lex.ch]⟩,
        read_ch { lex with paren_balance := lex.paren_balance - 1 },
        if lex.paren_balance = 0 then [lex.pos] else []⟩ := by
  have hs : isspace lex.ch = false := by
    rcases hc with h | h <;> rw [h] <;> decide
  rw [next_token_of_not_space _ hs, switch_close _ hc]

/-- C7: an unmatched closer is not fatal.  In a lexer whose balance is zero and
whose current character is `>` or the closing brace, `next_token` returns the
close token of that character with the character as literal, prints the
position, and leaves the lexer advanced by one `read_ch` with the balance still
zero; the input `>` alone gives a close token and then the end-of-input token,
whatever the balance field held at creation. -/
theorem unmatched_closer_is_not_fatal (lex : lexer) (hb : lex.paren_balance = 0)
    (hc : lex.ch = '>' ∨ lex.ch = '\x7d') :
    next_token lex =
      some ⟨⟨if lex.ch = '>' then SERV_CLOSE else SERV_RBRACE, some [lex.ch]⟩,
        read_ch lex, [lex.pos]⟩ ∧
    (read_ch lex).paren_balance = 0 ∧
    (read_ch lex).pos = lex.nextpos ∧
    (read_ch lex).nextpos = (lex.nextpos + 1) % 65536 ∧
    (read_ch lex).input = lex.input ∧
    ∀ junk, (tokenize 2 (new_lexer ">".toList junk)).map Prod.fst =
      .ok [⟨SERV_CLOSE, some ">".toList⟩, ⟨SERV_EOF, some "EOF".toList⟩] := by
  refine ⟨?_, hb, rfl, rfl, rfl, ?_⟩
  · have hl : { lex with paren_balance := lex.paren_balance - 1 } = lex := by
      cases lex
      simp at hb
      simp [hb]
    rw [next_token_closer lex hc, hl, if_pos hb]
  · intro junk
    rw [new_lexer_junk, tokenize_balance]
    decide

/-- C7 at a lexer that stands on the closer of `a>` with a balance of zero. -/
theorem unmatched_closer_is_not_fatal_witness :
    (⟨"a>".toList, '>', 1, 2, 0⟩ : lexer).paren_balance = 0 ∧
    next_token ⟨"a>".toList, '>', 1, 2, 0⟩ =
      some ⟨⟨SERV_CLOSE, some ">".toList⟩, ⟨"a>".toList, NUL, 2, 3, 0⟩, [1]⟩ := by
  refine ⟨rfl, ?_⟩
  have h := (unmatched_closer_is_not_fatal ⟨"a>".toList, '>', 1, 2, 0⟩ rfl (Or.inl rfl)).1
  rw [h]
  decide

theorem next_token_word (w : List Char) (junk : Nat) (tok : token) (l1 : lexer)
    (hsp : isspace (w.headD NUL) = false) (hal : isalpha (w.headD NUL) = true)
    (h0 : handle_ident (new_lexer w 0) = some (tok, l1)) :
    next_token (new_lexer w junk) =
      some ⟨tok, { l1 with paren_balance := junk % 65536 }, []⟩ := by
  have hs : isspace (new_lexer w junk).ch = false := hsp
  have ha : isalpha (new_lexer w junk).ch = true := hal
  rw [next_token_of_not_space _ hs, switch_alpha _ ha, new_lexer_junk, handle_ident_balance, h0]
  rfl

theorem keywords_handle_ident : ∀ kw ∈ keywords,
    isspace (kw.literal.headD NUL) = false ∧ isalpha (kw.literal.headD NUL) = true ∧
    handle_ident (new_lexer kw.literal 0) =
      some (⟨kw.type, some kw.literal⟩,
        ⟨kw.literal, NUL, kw.literal.length, kw.literal.length + 1, 0⟩) := by
  decide

/-- C2: every entry of `keywords`, tokenized alone from a fresh lexer, gives a
token with the category and the spelling of the entry, and the call after it
returns the end-of-input token. -/
theorem keyword_alone_tokenizes (kw : keyword) (h : kw ∈ keywords) (junk : Nat) :
    ∃ lex1,
      next_token (new_lexer kw.literal junk) = some ⟨⟨kw.type, some kw.literal⟩, lex1, []⟩ ∧
      next_token lex1 = some ⟨⟨SERV_EOF, some "EOF".toList⟩, lex1, []⟩ := by
  obtain ⟨hsp, hal, h0⟩ := keywords_handle_ident kw h
  exact ⟨_, next_token_word _ junk _ _ hsp hal h0, next_token_eof _ rfl⟩

/-- C2 at the entry `underline`. -/
theorem keyword_alone_tokenizes_witness :
    (⟨"underline".toList, DIRECT_DOWN⟩ : keyword) ∈ keywords ∧
    ∃ lex1,
      next_token (new_lexer "underline".toList 0) =
        some ⟨⟨DIRECT_DOWN, some "underline".toList⟩, lex1, []⟩ ∧
      next_token lex1 = some ⟨⟨SERV_EOF, some "EOF".toList⟩, lex1, []⟩ :=
  ⟨by decide, keyword_alone_tokenizes ⟨"underline".toList, DIRECT_DOWN⟩ (by decide) 0⟩

/-! ## The cursor -/

theorem new_lexer_at_cursor (input : List Char) (junk : Nat) :
    at_cursor (cstr input) (new_lexer input junk) := by
  refine ⟨rfl, Nat.zero_le _, ?_, rfl⟩
  cases input with
  | nil => rfl
  | cons c t =>
    by_cases h : c = NUL
    · simp [new_lexer, cstr_cons, h]
    · simp [new_lexer, cstr_cons, h]

theorem new_lexer_tracks (input : List Char) (junk : Nat) :
    tracks (junk % 65536) (cstr input) (new_lexer input junk) := by
  simp [tracks, new_lexer]

theorem at_cursor_pos_lt {s : List Char} {lex : lexer} (h : at_cursor s lex)
    (hc : lex.ch ≠ NUL) : lex.pos < s.length := by
  by_contra hn
  apply hc
  rw [h.ch_eq, List.getD_eq_default _ _ (Nat.le_of_not_lt hn)]

theorem at_cursor_ch_mem {s : List Char} {lex : lexer} (h : at_cursor s lex)
    (hc : lex.ch ≠ NUL) : lex.ch ∈ s := by
  have hp := at_cursor_pos_lt h hc
  rw [h.ch_eq, List.getD_eq_getElem _ _ hp]
  exact List.getElem_mem _

theorem at_cursor_end {s : List Char} {lex : lexer} (hs : NUL ∉ s) (h : at_cursor s lex)
    (hc : lex.ch = NUL) : lex.pos = s.length := by
  by_contra hn
  have hp : lex.pos < s.length := lt_of_le_of_ne h.pos_le hn
  apply hs
  have e := h.ch_eq
  rw [List.getD_eq_getElem _ _ hp, hc] at e
  rw [e]
  exact List.getElem_mem _

theorem take_succ_getD {s : List Char} {p : Nat} (hp : p < s.length) :
    s.take (p + 1) = s.take p ++ [s.getD p NUL] := by
  rw [List.getD_eq_getElem _ _ hp, List.take_succ, List.getElem?_eq_getElem hp]
  rfl

/-- One `read_ch` from a position before the end, the balance having been
updated for the character read over. -/
theorem read_ch_at_cursor {s : List Char} {lex : lexer} {b0 : Nat} (hs : NUL ∉ s)
    (h : at_cursor s lex) (ht : tracks b0 s lex) (hc : lex.ch ≠ NUL) (hp : lex.pos < 65535) :
    at_cursor s (read_ch { lex with paren_balance := bump lex.paren_balance lex.ch }) ∧
    tracks b0 s (read_ch { lex with paren_balance := bump lex.paren_balance lex.ch }) ∧
    (read_ch { lex with paren_balance := bump lex.paren_balance lex.ch }).pos = lex.pos + 1 := by
  have hlt := at_cursor_pos_lt h hc
  have hn : lex.nextpos = lex.pos + 1 := by
    rw [h.next_eq]
    exact Nat.mod_eq_of_lt (by omega)
  refine ⟨⟨h.input_eq, ?_, ?_, ?_⟩, ?_, hn⟩
  · show lex.nextpos ≤ s.length
    omega
  · show (if lex.nextpos ≥ strlen lex.input then NUL else lex.input.getD lex.nextpos NUL)
      = s.getD lex.nextpos NUL
    rw [h.input_eq, strlen_of_not_mem hs]
    split_ifs with hge
    · rw [List.getD_eq_default _ _ hge]
    · rfl
  · show (lex.nextpos + 1) % 65536 = (lex.nextpos + 1) % 65536
    rfl
  · show bump lex.paren_balance lex.ch = (s.take lex.nextpos).foldl bump b0
    rw [hn, take_succ_getD hlt, List.foldl_append, ← ht, ← h.ch_eq]
    rfl

theorem bump_neutral {c : Char} (b : Nat) (ho : is_opener c = false) (hc : is_closer c = false) :
    bump b c = b := by
  simp [bump, ho, hc]

theorem set_balance_self (lex : lexer) : { lex with paren_balance := lex.paren_balance } = lex := by
  cases lex
  rfl

/-- One `read_ch` over a character that is not a delimiter. -/
theorem read_ch_plain {s : List Char} {lex : lexer} {b0 : Nat} (hs : NUL ∉ s)
    (h : at_cursor s lex) (ht : tracks b0 s lex) (hc : lex.ch ≠ NUL) (hp : lex.pos < 65535)
    (ho : is_opener lex.ch = false) (hcl : is_closer lex.ch = false) :
    at_cursor s (read_ch lex) ∧ tracks b0 s (read_ch lex) ∧ (read_ch lex).pos = lex.pos + 1 := by
  have h1 := read_ch_at_cursor hs h ht hc hp
  rw [bump_neutral _ ho hcl, set_balance_self] at h1
  exact h1

theorem isalpha_not_delim {c : Char} (h : isalpha c = true) :
    c ≠ NUL ∧ is_opener c = false ∧ is_closer c = false ∧ isspace c = false := by
  refine ⟨isalpha_ne h (by decide), ?_, ?_, ?_⟩
  · have h1 : c ≠ '<' := isalpha_ne h (by decide)
    have h2 : c ≠ '\x7b' := isalpha_ne h (by decide)
    simp [is_opener, h1, h2]
  · have h1 : c ≠ '>' := isalpha_ne h (by decide)
    have h2 : c ≠ '\x7d' := isalpha_ne h (by decide)
    simp [is_closer, h1, h2]
  · simp only [isalpha, Bool.or_eq_true, Bool.and_eq_true, decide_eq_true_eq] at h
    simp only [isspace, Bool.or_eq_false_iff, Bool.and_eq_false_iff, decide_eq_false_iff_not]
    omega

theorem isspace_not_delim {c : Char} (h : isspace c = true) :
    c ≠ NUL ∧ is_opener c = false ∧ is_closer c = false := by
  refine ⟨isspace_ne h (by decide), ?_, ?_⟩
  · have h1 : c ≠ '<' := isspace_ne h (by decide)
    have h2 : c ≠ '\x7b' := isspace_ne h (by decide)
    simp [is_opener, h1, h2]
  · have h1 : c ≠ '>' := isspace_ne h (by decide)
    have h2 : c ≠ '\x7d' := isspace_ne h (by decide)
    simp [is_closer, h1, h2]

/-- A property of the lexer that every `read_ch` over a letter keeps is kept by
the loop of `handle_ident`. -/
theorem handle_ident_loop_keeps (P : lexer → Prop)
    (hP : ∀ l, P l → isalpha l.ch = true → P (read_ch l))
    (room : Nat) (lex : lexer) (ident : List Char) (h : P lex) :
    P (handle_ident_loop room lex ident).1 := by
  induction room generalizing lex ident with
  | zero => exact h
  | succ room ih =>
    by_cases ha : isalpha lex.ch = true
    · simp only [handle_ident_loop, ha, if_true]
      exact ih _ _ (hP lex h ha)
    · simp only [handle_ident_loop, ha]
      exact h

/-! ## What one call does to the lexer -/

/-- The four ways in which the `switch` of `next_token` can return: over a
delimiter or punctuation character, which is read over with the balance
updated; at the sentinel; over a word; at any other character. -/
theorem next_token_switch_cases {lex : lexer} {r : step} (hr : next_token_switch lex = some r) :
    (lex.ch ≠ NUL ∧ isalpha lex.ch = false ∧ lexable lex.ch = true ∧
        r.lex = read_ch { lex with paren_balance := bump lex.paren_balance lex.ch } ∧
        r.tok.type ≠ SERV_EOF) ∨
    (lex.ch = NUL ∧ r.lex = lex ∧ r.tok = ⟨SERV_EOF, some "EOF".toList⟩) ∨
    (isalpha lex.ch = true ∧ r.lex = (handle_ident_loop (kwsize - 1) lex []).1 ∧
        r.tok.type ≠ SERV_EOF) ∨
    (lex.ch ≠ NUL ∧ (isspace lex.ch = true ∨ lexable lex.ch = false) ∧ r.lex = lex ∧
        r.tok = ⟨SERV_ILLEGAL, some "ILLEGAL".toList⟩) := by
  rcases char_cases lex.ch with h | h | h | h | h | h
  · rw [switch_open _ h] at hr
    cases hr
    left
    have hb : bump lex.paren_balance lex.ch = (lex.paren_balance + 1) % 65536 := by
      rcases h with h | h <;> rw [h] <;> rfl
    rw [hb]
    rcases h with h | h <;> simp +decide [h, lexable, NUL]
  · rw [switch_close _ h] at hr
    cases hr
    left
    have hb : bump lex.paren_balance lex.ch = lex.paren_balance - 1 := by
      rcases h with h | h <;> rw [h] <;> rfl
    rw [hb]
    rcases h with h | h <;> simp +decide [h, lexable, NUL]
  · rw [switch_punct _ h] at hr
    cases hr
    left
    have hb : bump lex.paren_balance lex.ch = lex.paren_balance := by
      rcases h with h | h | h <;> rw [h] <;> rfl
    rw [hb, set_balance_self]
    rcases h with h | h | h <;> simp +decide [h, lexable, NUL]
  · rw [switch_eof _ h] at hr
    cases hr
    exact Or.inr (Or.inl ⟨h, rfl, rfl⟩)
  · rw [switch_alpha _ h] at hr
    cases hi : handle_ident lex with
    | none =>
      rw [hi] at hr
      cases hr
    | some p =>
      rw [hi] at hr
      obtain ⟨k, hk, rfl⟩ := handle_ident_some hi
      cases hr
      exact Or.inr (Or.inr (Or.inl ⟨h, rfl, keywords_type_ne_eof k hk⟩))
  · obtain ⟨h1, h2, h3, h4, h5, h6, h7, h8, h9⟩ := h
    rw [switch_other _ h1 h2 h3 h4 h5 h6 h7 h8 h9] at hr
    cases hr
    refine Or.inr (Or.inr (Or.inr ⟨h8, ?_, rfl, rfl⟩))
    by_cases hsp : isspace lex.ch = true
    · exact Or.inl hsp
    · right
      simp [lexable, is_opener, is_closer, h1, h2, h3, h4, h5, h6, h7, h9, hsp]

theorem handle_ident_loop_inv {s : List Char} {b0 : Nat} (hs : NUL ∉ s)
    (hlen : s.length ≤ 65535) (p0 : Nat) (room : Nat) (lex : lexer) (ident : List Char)
    (h : at_cursor s lex) (ht : tracks b0 s lex) (hp : p0 ≤ lex.pos) :
    at_cursor s (handle_ident_loop room lex ident).1 ∧
    tracks b0 s (handle_ident_loop room lex ident).1 ∧
    p0 ≤ (handle_ident_loop room lex ident).1.pos := by
  apply handle_ident_loop_keeps (fun l => at_cursor s l ∧ tracks b0 s l ∧ p0 ≤ l.pos)
  · rintro l ⟨h1, h2, h3⟩ ha
    obtain ⟨hn, ho, hc, -⟩ := isalpha_not_delim ha
    have hlt := at_cursor_pos_lt h1 hn
    obtain ⟨g1, g2, g3⟩ := read_ch_plain hs h1 h2 hn (by omega) ho hc
    exact ⟨g1, g2, by omega⟩
  · exact ⟨h, ht, hp⟩

theorem next_token_switch_inv {s : List Char} {lex : lexer} {r : step} {b0 : Nat}
    (hs : NUL ∉ s) (hlen : s.length ≤ 65535) (h : at_cursor s lex) (ht : tracks b0 s lex)
    (hr : next_token_switch lex = some r) :
    at_cursor s r.lex ∧ tracks b0 s r.lex ∧ lex.pos ≤ r.lex.pos ∧
    (r.tok.type = SERV_EOF → r.lex.ch = NUL ∧ r.tok = ⟨SERV_EOF, some "EOF".toList⟩) ∧
    (r.tok.type ≠ SERV_EOF → lexable lex.ch = true → isspace lex.ch = false →
      lex.pos < r.lex.pos) := by
  rcases next_token_switch_cases hr with ⟨hn, -, -, hl, hty⟩ | ⟨hn, hl, htk⟩ | ⟨ha, hl, hty⟩ |
    ⟨hn, hx, hl, htk⟩
  · have hlt := at_cursor_pos_lt h hn
    obtain ⟨g1, g2, g3⟩ := read_ch_at_cursor hs h ht hn (by omega)
    rw [← hl] at g1 g2 g3
    exact ⟨g1, g2, by omega, fun e => absurd e hty, fun _ _ _ => by omega⟩
  · rw [hl]
    exact ⟨h, ht, le_refl _, fun _ => ⟨hn, htk⟩, fun e => absurd (by rw [htk]) e⟩
  · obtain ⟨hn, ho, hc, -⟩ := isalpha_not_delim ha
    have hlt := at_cursor_pos_lt h hn
    obtain ⟨g1, g2, g3⟩ := read_ch_plain hs h ht hn (by omega) ho hc
    have e : handle_ident_loop (kwsize - 1) lex [] =
        handle_ident_loop 30 (read_ch lex) ([] ++ [lex.ch]) := by
      show handle_ident_loop (30 + 1) lex [] = _
      simp only [handle_ident_loop, ha, if_true]
    obtain ⟨k1, k2, k3⟩ := handle_ident_loop_inv hs hlen (lex.pos + 1) 30 (read_ch lex)
      ([] ++ [lex.ch]) g1 g2 (by omega)
    rw [← e, ← hl] at k1 k2 k3
    exact ⟨k1, k2, by omega, fun e => absurd e hty, fun _ _ _ => by omega⟩
  · rw [hl]
    refine ⟨h, ht, le_refl _, fun e => ?_, fun _ h1 h2 => ?_⟩
    · rw [htk] at e
      cases e
    · rcases hx with hx | hx
      · rw [hx] at h2
        cases h2
      · rw [hx] at h1
        cases h1

theorem next_token_inv {s : List Char} {lex : lexer} {r : step} {b0 : Nat}
    (hs : NUL ∉ s) (hlen : s.length ≤ 65535) (h : at_cursor s lex) (ht : tracks b0 s lex)
    (hr : next_token lex = some r) :
    at_cursor s r.lex ∧ tracks b0 s r.lex ∧ lex.pos ≤ r.lex.pos ∧
    (r.tok.type = SERV_EOF → r.lex.ch = NUL ∧ r.tok = ⟨SERV_EOF, some "EOF".toList⟩) ∧
    (r.tok.type ≠ SERV_EOF → (∀ c ∈ s, lexable c = true) → lex.pos < r.lex.pos) := by
  by_cases hsp : isspace lex.ch = true
  · rw [next_token_of_space _ hsp] at hr
    obtain ⟨hn, ho, hc⟩ := isspace_not_delim hsp
    have hlt := at_cursor_pos_lt h hn
    obtain ⟨g1, g2, g3⟩ := read_ch_plain hs h ht hn (by omega) ho hc
    obtain ⟨k1, k2, k3, k4, -⟩ := next_token_switch_inv hs hlen g1 g2 hr
    exact ⟨k1, k2, by omega, k4, fun _ _ => by omega⟩
  · have hsp0 : isspace lex.ch = false := by simpa using hsp
    rw [next_token_of_not_space _ hsp0] at hr
    obtain ⟨k1, k2, k3, k4, k5⟩ := next_token_switch_inv hs hlen h ht hr
    refine ⟨k1, k2, k3, k4, fun hty hall => ?_⟩
    by_cases hn : lex.ch = NUL
    · exfalso
      rw [switch_eof _ hn] at hr
      cases hr
      exact hty rfl
    · exact k5 hty (hall _ (at_cursor_ch_mem h hn)) hsp0

/-! ## Runs of the loop of `main` -/

theorem next_token_type_eof {lex : lexer} {r : step} (hr : next_token lex = some r)
    (hty : r.tok.type = SERV_EOF) :
    r.tok = ⟨SERV_EOF, some "EOF".toList⟩ ∧ r.lex.ch = NUL := by
  have key : ∀ l : lexer, next_token_switch l = some r →
      r.tok = ⟨SERV_EOF, some "EOF".toList⟩ ∧ r.lex.ch = NUL := by
    intro l hl
    rcases next_token_switch_cases hl with ⟨-, -, -, -, h⟩ | ⟨hn, hl, htk⟩ | ⟨-, -, h⟩ |
      ⟨-, -, -, htk⟩
    · exact absurd hty h
    · rw [hl]
      exact ⟨htk, hn⟩
    · exact absurd hty h
    · rw [htk] at hty
      cases hty
  unfold next_token at hr
  exact key _ hr

theorem tokenize_ok_shape (fuel : Nat) (lex : lexer) (toks : List token) (last : lexer)
    (h : tokenize fuel lex = .ok (toks, last)) :
    toks.getLast? = some ⟨SERV_EOF, some "EOF".toList⟩ ∧
    (∀ t ∈ toks.dropLast, t.type ≠ SERV_EOF) ∧ toks.length ≤ fuel ∧ last.ch = NUL := by
  induction fuel generalizing lex toks with
  | zero => cases h
  | succ fuel ih =>
    simp only [tokenize] at h
    cases hn : next_token lex with
    | none =>
      rw [hn] at h
      cases h
    | some r =>
      rw [hn] at h
      simp only [] at h
      by_cases hty : r.tok.type = SERV_EOF
      · rw [if_pos hty] at h
        cases h
        obtain ⟨e1, e2⟩ := next_token_type_eof hn hty
        simp [e1, e2]
      · rw [if_neg hty] at h
        cases ht : tokenize fuel r.lex with
        | error e =>
          rw [ht] at h
          cases h
        | ok p =>
          obtain ⟨toks1, last1⟩ := p
          rw [ht] at h
          cases h
          obtain ⟨g1, g2, g3, g4⟩ := ih r.lex toks1 ht
          cases toks1 with
          | nil => simp at g1
          | cons t1 ts =>
            refine ⟨?_, ?_, ?_, g4⟩
            · rw [List.getLast?_cons_cons]
              exact g1
            · intro t hmem
              rw [List.dropLast_cons₂] at hmem
              rcases List.mem_cons.1 hmem with rfl | hmem
              · exact hty
              · exact g2 t hmem
            · simp only [List.length_cons] at g3 ⊢
              omega

theorem tokenize_inv {s : List Char} {b0 : Nat} (hs : NUL ∉ s) (hlen : s.length ≤ 65535)
    (fuel : Nat) (lex : lexer) (toks : List token) (last : lexer)
    (h : at_cursor s lex) (ht : tracks b0 s lex) (hrun : tokenize fuel lex = .ok (toks, last)) :
    at_cursor s last ∧ tracks b0 s last := by
  induction fuel generalizing lex toks with
  | zero => cases hrun
  | succ fuel ih =>
    simp only [tokenize] at hrun
    cases hn : next_token lex with
    | none =>
      rw [hn] at hrun
      cases hrun
    | some r =>
      rw [hn] at hrun
      simp only [] at hrun
      obtain ⟨k1, k2, -, -, -⟩ := next_token_inv hs hlen h ht hn
      by_cases hty : r.tok.type = SERV_EOF
      · rw [if_pos hty] at hrun
        cases hrun
        exact ⟨k1, k2⟩
      · rw [if_neg hty] at hrun
        cases ht1 : tokenize fuel r.lex with
        | error e =>
          rw [ht1] at hrun
          cases hrun
        | ok p =>
          obtain ⟨toks1, last1⟩ := p
          rw [ht1] at hrun
          cases hrun
          exact ih r.lex toks1 k1 k2 ht1

theorem tokenize_has_fuel {s : List Char} {b0 : Nat} (hs : NUL ∉ s) (hlen : s.length ≤ 65535)
    (hall : ∀ c ∈ s, lexable c = true) (fuel : Nat) (lex : lexer)
    (h : at_cursor s lex) (ht : tracks b0 s lex) (hf : s.length - lex.pos < fuel) :
    tokenize fuel lex ≠ .error .out_of_fuel := by
  induction fuel generalizing lex with
  | zero => omega
  | succ fuel ih =>
    simp only [tokenize]
    cases hn : next_token lex with
    | none =>
      intro e
      cases e
    | some r =>
      simp only []
      obtain ⟨k1, k2, k3, -, k5⟩ := next_token_inv hs hlen h ht hn
      by_cases hty : r.tok.type = SERV_EOF
      · rw [if_pos hty]
        intro e
        cases e
      · rw [if_neg hty]
        have hlt := k5 hty hall
        have hle := k1.pos_le
        have := ih r.lex k1 k2 (by omega)
        cases ht1 : tokenize fuel r.lex with
        | error e =>
          rw [ht1] at this
          intro e1
          cases e1
          exact this rfl
        | ok p =>
          obtain ⟨toks1, last1⟩ := p
          intro e1
          cases e1

/-! ## Inputs of 65536 characters or more -/

theorem read_ch_long {s : List Char} {lex : lexer} (hs : NUL ∉ s) (hlong : 65536 ≤ s.length)
    (h : lex.input = s ∧ lex.ch ≠ NUL ∧ lex.nextpos < 65536) :
    (read_ch lex).input = s ∧ (read_ch lex).ch ≠ NUL ∧ (read_ch lex).nextpos < 65536 := by
  obtain ⟨h1, -, h3⟩ := h
  refine ⟨h1, ?_, Nat.mod_lt _ (by decide)⟩
  show (if lex.nextpos ≥ strlen lex.input then NUL else lex.input.getD lex.nextpos NUL) ≠ NUL
  have hlt : lex.nextpos < s.length := by omega
  rw [h1, strlen_of_not_mem hs, if_neg (by omega), List.getD_eq_getElem _ _ hlt]
  intro e
  apply hs
  rw [← e]
  exact List.getElem_mem _

theorem next_token_long {s : List Char} {lex : lexer} {r : step} (hs : NUL ∉ s)
    (hlong : 65536 ≤ s.length) (h : lex.input = s ∧ lex.ch ≠ NUL ∧ lex.nextpos < 65536)
    (hr : next_token lex = some r) :
    (r.lex.input = s ∧ r.lex.ch ≠ NUL ∧ r.lex.nextpos < 65536) ∧ r.tok.type ≠ SERV_EOF := by
  have key : ∀ l : lexer, (l.input = s ∧ l.ch ≠ NUL ∧ l.nextpos < 65536) →
      next_token_switch l = some r →
      (r.lex.input = s ∧ r.lex.ch ≠ NUL ∧ r.lex.nextpos < 65536) ∧ r.tok.type ≠ SERV_EOF := by
    intro l hl hsw
    rcases next_token_switch_cases hsw with ⟨-, -, -, e, hty⟩ | ⟨hn, -, -⟩ | ⟨-, e, hty⟩ |
      ⟨-, -, e, htk⟩
    · rw [e]
      exact ⟨@read_ch_long s { l with paren_balance := _ } hs hlong hl, hty⟩
    · exact absurd hn hl.2.1
    · rw [e]
      refine ⟨?_, hty⟩
      exact handle_ident_loop_keeps
        (fun l => l.input = s ∧ l.ch ≠ NUL ∧ l.nextpos < 65536)
        (fun l hl _ => read_ch_long hs hlong hl) _ _ _ hl
    · rw [e, htk]
      exact ⟨hl, by decide⟩
  unfold next_token at hr
  split_ifs at hr with hsp
  · exact key _ (read_ch_long hs hlong h) hr
  · exact key _ h hr

/-- On a string of 65536 characters or more the 16-bit cursor wraps around
before it reaches the end: no run of the loop of `main` ends. -/
theorem tokenize_long {s : List Char} (hs : NUL ∉ s) (hlong : 65536 ≤ s.length)
    (fuel : Nat) (lex : lexer) (h : lex.input = s ∧ lex.ch ≠ NUL ∧ lex.nextpos < 65536)
    (p : List token × lexer) : tokenize fuel lex ≠ .ok p := by
  induction fuel generalizing lex p with
  | zero =>
    intro e
    cases e
  | succ fuel ih =>
    simp only [tokenize]
    cases hn : next_token lex with
    | none =>
      intro e
      cases e
    | some r =>
      simp only []
      obtain ⟨k1, hty⟩ := next_token_long hs hlong h hn
      rw [if_neg hty]
      cases ht1 : tokenize fuel r.lex with
      | error e =>
        intro e1
        cases e1
      | ok p1 => exact absurd ht1 (ih r.lex k1 p1)

theorem new_lexer_long (input : List Char) (junk : Nat) (hlong : 65536 ≤ (cstr input).length) :
    (new_lexer input junk).input = cstr input ∧ (new_lexer input junk).ch ≠ NUL ∧
      (new_lexer input junk).nextpos < 65536 := by
  refine ⟨rfl, ?_, by simp [new_lexer]⟩
  cases input with
  | nil => simp [cstr_nil] at hlong
  | cons c t =>
    intro e
    have e1 : c = NUL := e
    simp [cstr_cons, e1] at hlong

/-- On 65536 commas the loop of `main` never returns the end-of-input token: after
the character at index 65535 the cursor is back at index 0. -/
theorem wrap_around_never_reaches_eof (junk fuel : Nat) (p : List token × lexer) :
    tokenize fuel (new_lexer (List.replicate 65536 ',') junk) ≠ .ok p := by
  have hs : NUL ∉ List.replicate 65536 ',' := by
    intro h
    have := List.eq_of_mem_replicate h
    revert this
    decide
  have hc : cstr (List.replicate 65536 ',') = List.replicate 65536 ',' := cstr_of_not_mem hs
  have hl : (cstr (List.replicate 65536 ',')).length = 65536 := by
    rw [hc, List.length_replicate]
  have h := tokenize_long (not_mem_cstr (List.replicate 65536 ',')) (by omega) fuel
    (new_lexer (List.replicate 65536 ',') junk)
    (new_lexer_long (List.replicate 65536 ',') junk (by omega)) p
  exact h

/-! ## Balanced strings -/

theorem opener_not_closer {c : Char} (h : is_opener c = true) : is_closer c = false := by
  simp only [is_opener, Bool.or_eq_true, decide_eq_true_eq] at h
  rcases h with rfl | rfl <;> decide

theorem foldl_bump_balanced (s : List Char) (hlen : s.length ≤ 65535)
    (hpre : ∀ k ≤ s.length, closers (s.take k) ≤ openers (s.take k)) :
    s.foldl bump 0 + closers s = openers s := by
  induction s using List.reverseRecOn with
  | nil => rfl
  | append_singleton q c ih =>
    have hq : q.length + 1 ≤ 65535 := by simpa using hlen
    have ih1 := ih (by omega) (fun k hk => by
      have := hpre k (by simp; omega)
      rwa [List.take_append_of_le_length hk] at this)
    have hfull := hpre (q ++ [c]).length (le_refl _)
    rw [List.take_length] at hfull
    have ho : openers q ≤ q.length := List.countP_le_length _
    simp only [openers, closers, List.countP_append, List.countP_singleton, List.foldl_append,
      List.foldl_cons, List.foldl_nil] at hfull ih1 ho ⊢
    by_cases h1 : is_opener c = true
    · have h2 := opener_not_closer h1
      simp only [bump, h1, h2, if_true] at hfull ⊢
      rw [Nat.mod_eq_of_lt (by omega)]
      simp
      omega
    · by_cases h2 : is_closer c = true
      · simp only [bump, h1, h2, if_true, if_false] at hfull ⊢
        simp at hfull ⊢
        omega
      · simp only [bump, h1, h2, if_false] at hfull ⊢
        simp
        omega

/-! ## The scan of a word -/

theorem read_ch_cursor {s : List Char} {lex : lexer} (hs : NUL ∉ s)
    (h : at_cursor s lex) (hc : lex.ch ≠ NUL) (hp : lex.pos < 65535) :
    at_cursor s (read_ch lex) ∧ (read_ch lex).pos = lex.pos + 1 := by
  have hlt := at_cursor_pos_lt h hc
  have hn : lex.nextpos = lex.pos + 1 := by
    rw [h.next_eq]
    exact Nat.mod_eq_of_lt (by omega)
  refine ⟨⟨h.input_eq, ?_, ?_, rfl⟩, hn⟩
  · show lex.nextpos ≤ s.length
    omega
  · show (if lex.nextpos ≥ strlen lex.input then NUL else lex.input.getD lex.nextpos NUL)
      = s.getD lex.nextpos NUL
    rw [h.input_eq, strlen_of_not_mem hs]
    split_ifs with hge
    · rw [List.getD_eq_default _ _ hge]
    · rfl

/-- The loop of `handle_ident` collects the letters that stand at the cursor,
at most `room` of them, and leaves the cursor after them. -/
theorem handle_ident_loop_scan {s : List Char} (hs : NUL ∉ s) (room : Nat) (lex : lexer)
    (ident : List Char) (h : at_cursor s lex) (hp : lex.pos + room ≤ 65535) :
    (handle_ident_loop room lex ident).2 =
      ident ++ ((s.drop lex.pos).takeWhile isalpha).take room ∧
    (handle_ident_loop room lex ident).1.pos =
      lex.pos + (((s.drop lex.pos).takeWhile isalpha).take room).length ∧
    at_cursor s (handle_ident_loop room lex ident).1 := by
  induction room generalizing lex ident with
  | zero => simp [handle_ident_loop, h]
  | succ room ih =>
    by_cases ha : isalpha lex.ch = true
    · have hn := (isalpha_not_delim ha).1
      have hlt := at_cursor_pos_lt h hn
      obtain ⟨g1, g2⟩ := read_ch_cursor hs h hn (by omega)
      obtain ⟨k1, k2, k3⟩ := ih (read_ch lex) (ident ++ [lex.ch]) g1 (by omega)
      have hch : lex.ch = s[lex.pos] := by
        rw [h.ch_eq, List.getD_eq_getElem _ _ hlt]
      have hd : s.drop lex.pos = s[lex.pos] :: s.drop (lex.pos + 1) :=
        List.drop_eq_getElem_cons hlt
      have ha1 : isalpha s[lex.pos] = true := by rw [← hch]; exact ha
      simp only [handle_ident_loop, ha, if_true]
      rw [hd, List.takeWhile_cons_of_pos ha1, List.take_succ_cons, k1, k2, g2, ← hch]
      refine ⟨by simp, ?_, k3⟩
      simp only [List.length_cons]
      omega
    · have e : (s.drop lex.pos).takeWhile isalpha = [] := by
        by_cases hlt : lex.pos < s.length
        · have hch : lex.ch = s[lex.pos] := by
            rw [h.ch_eq, List.getD_eq_getElem _ _ hlt]
          rw [List.drop_eq_getElem_cons hlt, List.takeWhile_cons_of_neg]
          rw [← hch]
          exact ha
        · rw [List.drop_eq_nil_of_le (by omega)]
          rfl
      simp [handle_ident_loop, ha, e, h]

theorem keywords_length_ne : ∀ k ∈ keywords, k.literal.length ≠ 31 := by decide

theorem alpha_no_NUL {w : List Char} (h : ∀ c ∈ w, isalpha c = true) : NUL ∉ w := by
  intro hm
  have := h NUL hm
  revert this
  decide

/-! ## Words that are not keywords -/

/-- C3, as stated, fails on a run of forty letters: `next_token` returns no token
at all, so there is no illegal token that covers the word followed by the
end-of-input token; and the scan of `handle_ident` stops at position 31 with a
letter still at the cursor. -/
theorem forty_letters_not_one_illegal_token :
    (¬ ∃ r1 r2, next_token (new_lexer (List.replicate 40 'q') 0) = some r1 ∧
        r1.tok.type = SERV_ILLEGAL ∧ r1.lex.pos = 40 ∧
        next_token r1.lex = some r2 ∧ r2.tok.type = SERV_EOF) ∧
    (handle_ident_loop (kwsize - 1) (new_lexer (List.replicate 40 'q') 0) []).1.pos = 31 ∧
    (handle_ident_loop (kwsize - 1) (new_lexer (List.replicate 40 'q') 0) []).1.ch = 'q' := by
  refine ⟨?_, by decide, by decide⟩
  have h0 : next_token (new_lexer (List.replicate 40 'q') 0) = none := by decide
  rintro ⟨r1, r2, h, -⟩
  rw [h0] at h
  cases h

/-- C3, amended: for a non-empty word of letters that is not a keyword, the scan
of `handle_ident` from a fresh lexer collects the first `min n 31` letters of
the word and leaves the cursor after them, and `find_keyword` finds no entry for
what was collected; when the word has at most 31 letters the cursor is then at
the sentinel and `next_token` from there returns the end-of-input token. -/
theorem unknown_word_scan (w : List Char) (junk : Nat) (hne : w ≠ [])
    (halpha : ∀ c ∈ w, isalpha c = true) (hnk : ∀ k ∈ keywords, k.literal ≠ w) :
    ∃ lex1 ident, handle_ident_loop (kwsize - 1) (new_lexer w junk) [] = (lex1, ident) ∧
      ident = w.take 31 ∧ lex1.pos = min w.length 31 ∧ 0 < lex1.pos ∧
      lex1.input = w ∧ lex1.ch = w.getD lex1.pos NUL ∧
      find_keyword (ident ++ [NUL]) = none ∧
      (w.length ≤ 31 → lex1.ch = NUL ∧
        next_token lex1 = some ⟨⟨SERV_EOF, some "EOF".toList⟩, lex1, []⟩) := by
  have hs : NUL ∉ w := alpha_no_NUL halpha
  have hc : cstr w = w := cstr_of_not_mem hs
  have hcur : at_cursor w (new_lexer w junk) := by
    have := new_lexer_at_cursor w junk
    rwa [hc] at this
  obtain ⟨k1, k2, k3⟩ := handle_ident_loop_scan hs (kwsize - 1) (new_lexer w junk) [] hcur
    (by show 0 + 31 ≤ 65535; decide)
  have htw : w.takeWhile isalpha = w := List.takeWhile_eq_self_iff.2 halpha
  have hpos0 : (new_lexer w junk).pos = 0 := rfl
  rw [hpos0, List.drop_zero, htw] at k1 k2
  have hk : kwsize - 1 = 31 := rfl
  rw [hk] at k1 k2 k3
  simp only [List.nil_append, List.length_take, Nat.zero_add] at k1 k2
  have hlen : 0 < w.length := List.length_pos.2 hne
  have hnul : NUL ∉ w.take 31 := fun hm => hs (List.mem_of_mem_take hm)
  refine ⟨(handle_ident_loop 31 (new_lexer w junk) []).1,
    (handle_ident_loop 31 (new_lexer w junk) []).2, rfl, k1, ?_, ?_, k3.input_eq, k3.ch_eq, ?_, ?_⟩
  · rw [k2, Nat.min_comm]
  · rw [k2]
    omega
  · rw [k1]
    apply find_keyword_none
    intro k hk1
    rw [cstr_append_NUL hnul]
    by_cases hl : w.length ≤ 31
    · rw [List.take_of_length_le hl]
      exact hnk k hk1
    · intro e
      apply keywords_length_ne k hk1
      rw [e, List.length_take]
      omega
  · intro hl
    have hch : (handle_ident_loop 31 (new_lexer w junk) []).1.ch = NUL := by
      rw [k3.ch_eq, k2, List.getD_eq_default]
      omega
    exact ⟨hch, next_token_eof _ hch⟩

/-- C3, amended, at the word `foo`. -/
theorem unknown_word_scan_witness :
    "foo".toList ≠ [] ∧ (∀ c ∈ "foo".toList, isalpha c = true) ∧
    (∀ k ∈ keywords, k.literal ≠ "foo".toList) ∧
    ∃ lex1 ident, handle_ident_loop (kwsize - 1) (new_lexer "foo".toList 0) [] = (lex1, ident) ∧
      ident = "foo".toList.take 31 ∧ lex1.pos = min "foo".toList.length 31 ∧ 0 < lex1.pos ∧
      lex1.input = "foo".toList ∧ lex1.ch = "foo".toList.getD lex1.pos NUL ∧
      find_keyword (ident ++ [NUL]) = none ∧
      ("foo".toList.length ≤ 31 → lex1.ch = NUL ∧
        next_token lex1 = some ⟨⟨SERV_EOF, some "EOF".toList⟩, lex1, []⟩) :=
  ⟨by decide, by decide, by decide,
    unknown_word_scan "foo".toList 0 (by decide) (by decide) (by decide)⟩

/-! ## Termination -/

/-- C4, as stated, fails on the input `1`: every call of `next_token` returns the
illegal token and leaves the lexer where it is, so no number of calls reaches
the end-of-input token. -/
theorem illegal_character_never_reaches_eof :
    ¬ ∃ fuel toks last, tokenize fuel (new_lexer "1".toList 0) = .ok (toks, last) := by
  have h0 : next_token (new_lexer "1".toList 0) =
      some ⟨⟨SERV_ILLEGAL, some "ILLEGAL".toList⟩, new_lexer "1".toList 0, []⟩ := by decide
  have key : ∀ fuel, tokenize fuel (new_lexer "1".toList 0) = .error .out_of_fuel := by
    intro fuel
    induction fuel with
    | zero => rfl
    | succ fuel ih =>
      simp only [tokenize, h0, ih]
      rfl
  rintro ⟨fuel, toks, last, h⟩
  rw [key fuel] at h
  cases h

/-- C4, amended: for an input of at most 65535 characters, all of them whitespace,
delimiters, punctuation or letters, on which no call of `next_token` reads
through `NULL`, the loop of `main` ends within as many calls as the input has
characters, plus one: the tokens returned are finitely many, the last one is the
end-of-input token and no earlier one is. -/
theorem tokenize_reaches_eof (input : List Char) (junk : Nat)
    (hlen : strlen input ≤ 65535) (hall : ∀ c ∈ cstr input, lexable c = true)
    (hnf : tokenize (strlen input + 1) (new_lexer input junk) ≠ .error .null_deref) :
    ∃ toks last, tokenize (strlen input + 1) (new_lexer input junk) = .ok (toks, last) ∧
      toks.getLast? = some ⟨SERV_EOF, some "EOF".toList⟩ ∧
      (∀ t ∈ toks.dropLast, t.type ≠ SERV_EOF) ∧ toks.length ≤ strlen input + 1 := by
  have hs := not_mem_cstr input
  have hfuel := tokenize_has_fuel hs hlen hall (strlen input + 1) (new_lexer input junk)
    (new_lexer_at_cursor input junk) (new_lexer_tracks input junk)
    (by show (cstr input).length - 0 < (cstr input).length + 1; omega)
  cases hrun : tokenize (strlen input + 1) (new_lexer input junk) with
  | error e =>
    cases e with
    | null_deref => exact absurd hrun hnf
    | out_of_fuel => exact absurd hrun hfuel
  | ok p =>
    obtain ⟨toks, last⟩ := p
    obtain ⟨g1, g2, g3, -⟩ := tokenize_ok_shape _ _ _ _ hrun
    exact ⟨toks, last, rfl, g1, g2, g3⟩

/-- C4, amended, at the input of `main`. -/
theorem tokenize_reaches_eof_witness :
    strlen "<bold, red></>".toList ≤ 65535 ∧
    (∀ c ∈ cstr "<bold, red></>".toList, lexable c = true) ∧
    tokenize (strlen "<bold, red></>".toList + 1) (new_lexer "<bold, red></>".toList 0)
      ≠ .error .null_deref ∧
    ∃ toks last,
      tokenize (strlen "<bold, red></>".toList + 1) (new_lexer "<bold, red></>".toList 0)
        = .ok (toks, last) ∧
      toks.getLast? = some ⟨SERV_EOF, some "EOF".toList⟩ ∧
      (∀ t ∈ toks.dropLast, t.type ≠ SERV_EOF) ∧
      toks.length ≤ strlen "<bold, red></>".toList + 1 :=
  ⟨by decide, by decide, by decide,
    tokenize_reaches_eof "<bold, red></>".toList 0 (by decide) (by decide) (by decide)⟩

/-! ## The nesting balance -/

/-- C6: when the delimiters of the input are balanced and the lexer created for
it starts with a balance of zero, every run of the loop of `main` that reaches
the end-of-input token leaves the balance at zero. -/
theorem balanced_input_ends_at_zero (input : List Char) (junk fuel : Nat)
    (toks : List token) (last : lexer)
    (h0 : (new_lexer input junk).paren_balance = 0) (hbal : balanced (cstr input))
    (hrun : tokenize fuel (new_lexer input junk) = .ok (toks, last)) :
    last.paren_balance = 0 := by
  have hs := not_mem_cstr input
  by_cases hlen : (cstr input).length ≤ 65535
  · have ht0 : tracks 0 (cstr input) (new_lexer input junk) := by
      have := new_lexer_tracks input junk
      have e : junk % 65536 = 0 := h0
      rwa [e] at this
    obtain ⟨k1, k2⟩ := tokenize_inv hs hlen fuel _ toks last
      (new_lexer_at_cursor input junk) ht0 hrun
    obtain ⟨-, -, -, hch⟩ := tokenize_ok_shape _ _ _ _ hrun
    have hpos := at_cursor_end hs k1 hch
    have hf := foldl_bump_balanced (cstr input) hlen hbal.1
    unfold tracks at k2
    rw [hpos, List.take_length] at k2
    rw [k2]
    have := hbal.2
    omega
  · exact absurd hrun (tokenize_long hs (by omega) fuel _
      (new_lexer_long input junk (by omega)) _)

/-- C6 at an input with two nested pairs of delimiters around a keyword. -/
theorem balanced_input_ends_at_zero_witness :
    (new_lexer "<\x7bup\x7d>".toList 0).paren_balance = 0 ∧
    balanced (cstr "<\x7bup\x7d>".toList) ∧
    tokenize 6 (new_lexer "<\x7bup\x7d>".toList 0) =
      .ok ([⟨SERV_OPEN, some "<".toList⟩, ⟨SERV_LBRACE, some "\x7b".toList⟩,
          ⟨DIRECT_UP, some "up".toList⟩, ⟨SERV_RBRACE, some "\x7d".toList⟩,
          ⟨SERV_CLOSE, some ">".toList⟩, ⟨SERV_EOF, some "EOF".toList⟩],
        ⟨"<\x7bup\x7d>".toList, NUL, 6, 7, 0⟩) ∧
    (⟨"<\x7bup\x7d>".toList, NUL, 6, 7, 0⟩ : lexer).paren_balance = 0 :=
  ⟨rfl, by decide, by decide,
    balanced_input_ends_at_zero "<\x7bup\x7d>".toList 0 6
      [⟨SERV_OPEN, some "<".toList⟩, ⟨SERV_LBRACE, some "\x7b".toList⟩,
        ⟨DIRECT_UP, some "up".toList⟩, ⟨SERV_RBRACE, some "\x7d".toList⟩,
        ⟨SERV_CLOSE, some ">".toList⟩, ⟨SERV_EOF, some "EOF".toList⟩]
      ⟨"<\x7bup\x7d>".toList, NUL, 6, 7, 0⟩ rfl (by decide) (by decide)⟩

/-! ## Characters without a case of their own -/

theorem next_token_other (lex : lexer) (hsp : isspace lex.ch = false)
    (h1 : lex.ch ≠ '<') (h2 : lex.ch ≠ '>') (h3 : lex.ch ≠ '\x7b') (h4 : lex.ch ≠ '\x7d')
    (h5 : lex.ch ≠ ':') (h6 : lex.ch ≠ ',') (h7 : lex.ch ≠ '/') (h8 : lex.ch ≠ NUL)
    (h9 : isalpha lex.ch = false) :
    next_token lex = some ⟨⟨SERV_ILLEGAL, some "ILLEGAL".toList⟩, lex, []⟩ := by
  rw [next_token_of_not_space _ hsp, switch_other _ h1 h2 h3 h4 h5 h6 h7 h8 h9]

theorem nth_call_fixed (lex : lexer) (r : step) (h : next_token lex = some r)
    (hl : r.lex = lex) (n : Nat) : nth_call n lex = some r := by
  induction n with
  | zero => exact h
  | succ n ih =>
    simp only [nth_call, h]
    rw [hl]
    exact ih

/-- C14: an illegal character does not move the cursor.  In a lexer whose current
character is not whitespace, not one of the seven delimiter and punctuation
characters, not a letter and not the sentinel, `next_token` returns the token
`(SERV_ILLEGAL, "ILLEGAL")`, prints nothing and leaves the lexer as it was, and so
does every later call. -/
theorem illegal_character_stays (lex : lexer) (hsp : isspace lex.ch = false)
    (h1 : lex.ch ≠ '<') (h2 : lex.ch ≠ '>') (h3 : lex.ch ≠ '\x7b') (h4 : lex.ch ≠ '\x7d')
    (h5 : lex.ch ≠ ':') (h6 : lex.ch ≠ ',') (h7 : lex.ch ≠ '/') (h8 : lex.ch ≠ NUL)
    (h9 : isalpha lex.ch = false) :
    next_token lex = some ⟨⟨SERV_ILLEGAL, some "ILLEGAL".toList⟩, lex, []⟩ ∧
    ∀ n, nth_call n lex = some ⟨⟨SERV_ILLEGAL, some "ILLEGAL".toList⟩, lex, []⟩ :=
  ⟨next_token_other lex hsp h1 h2 h3 h4 h5 h6 h7 h8 h9,
    nth_call_fixed lex _ (next_token_other lex hsp h1 h2 h3 h4 h5 h6 h7 h8 h9) rfl⟩

/-- C14 at a lexer that stands on the digit of `<1>`. -/
theorem illegal_character_stays_witness :
    isspace '1' = false ∧ isalpha '1' = false ∧
    next_token ⟨"<1>".toList, '1', 1, 2, 1⟩ =
      some ⟨⟨SERV_ILLEGAL, some "ILLEGAL".toList⟩, ⟨"<1>".toList, '1', 1, 2, 1⟩, []⟩ ∧
    ∀ n, nth_call n ⟨"<1>".toList, '1', 1, 2, 1⟩ =
      some ⟨⟨SERV_ILLEGAL, some "ILLEGAL".toList⟩, ⟨"<1>".toList, '1', 1, 2, 1⟩, []⟩ :=
  ⟨by decide, by decide,
    illegal_character_stays ⟨"<1>".toList, '1', 1, 2, 1⟩ (by decide) (by decide) (by decide)
      (by decide) (by decide) (by decide) (by decide) (by decide) (by decide) (by decide)⟩

/-! ## Whitespace -/

/-- C15: whitespace is skipped one character at a time.  In a lexer whose current
character is whitespace, `next_token` returns what the `switch` alone returns
from the lexer after one `read_ch`.  When the character read is not whitespace,
that is what `next_token` itself returns from there; when it is whitespace too,
it is not skipped: the call returns the illegal token and leaves the cursor on
that second whitespace character. -/
theorem whitespace_skipped_once (lex : lexer) (h : isspace lex.ch = true) :
    next_token lex = next_token_switch (read_ch lex) ∧
    (isspace (read_ch lex).ch = false → next_token lex = next_token (read_ch lex)) ∧
    (isspace (read_ch lex).ch = true →
      next_token lex = some ⟨⟨SERV_ILLEGAL, some "ILLEGAL".toList⟩, read_ch lex, []⟩) := by
  refine ⟨next_token_of_space lex h, fun h2 => ?_, fun h2 => ?_⟩
  · rw [next_token_of_space lex h, next_token_of_not_space _ h2]
  rw [next_token_of_space lex h]
  exact switch_other _ (isspace_ne h2 (by decide)) (isspace_ne h2 (by decide))
    (isspace_ne h2 (by decide)) (isspace_ne h2 (by decide)) (isspace_ne h2 (by decide))
    (isspace_ne h2 (by decide)) (isspace_ne h2 (by decide)) (isspace_ne h2 (by decide))
    (by
      cases ha : isalpha (read_ch lex).ch with
      | false => rfl
      | true => exact absurd h2 (by rw [(isalpha_not_delim ha).2.2.2]; decide))

/-- C15 at the fresh lexer of an input that starts with two spaces. -/
theorem whitespace_skipped_once_witness :
    isspace (new_lexer "  <".toList 0).ch = true ∧
    next_token (new_lexer "  <".toList 0) =
      next_token_switch (read_ch (new_lexer "  <".toList 0)) ∧
    next_token (new_lexer "  <".toList 0) =
      some ⟨⟨SERV_ILLEGAL, some "ILLEGAL".toList⟩, ⟨"  <".toList, ' ', 1, 2, 0⟩, []⟩ := by
  have h := whitespace_skipped_once (new_lexer "  <".toList 0) (by decide)
  exact ⟨by decide, h.1, by rw [h.2.2 (by decide)]; decide⟩

/-! ## The fresh lexer -/

/-- C19: `new_lexer` sets the position to 0, the next position to 1, the stored
input to the string given and the current character to its first character
(the sentinel for the empty string), but it does not assign `paren_balance`:
the field keeps what the allocated memory held, for instance 7. -/
theorem new_lexer_fields (input : List Char) (junk : Nat) :
    (new_lexer input junk).pos = 0 ∧ (new_lexer input junk).nextpos = 1 ∧
    (new_lexer input junk).input = cstr input ∧
    (new_lexer input junk).ch = (cstr input).getD 0 NUL ∧
    (new_lexer [] junk).ch = NUL ∧
    (new_lexer input junk).paren_balance = junk % 65536 ∧
    (new_lexer "<bold, red></>".toList 7).paren_balance = 7 := by
  refine ⟨rfl, rfl, rfl, (new_lexer_at_cursor input junk).ch_eq, rfl, rfl, rfl⟩

/-! ## The spellings of the table are distinct -/

theorem keywords_nodup : (keywords.map keyword.literal).Nodup := by decide

theorem keywords_literal_inj {k1 k2 : keyword} (h1 : k1 ∈ keywords) (h2 : k2 ∈ keywords)
    (h : k1.literal = k2.literal) : k1 = k2 :=
  List.inj_on_of_nodup_map keywords_nodup h1 h2 h

theorem find_keyword_from_perm (ks : List keyword) (hp : ks.Perm keywords) (s : List Char) :
    find_keyword_from s ks = find_keyword s := by
  have hks : ∀ k ∈ ks, NUL ∉ k.literal :=
    fun k hk => keywords_literal_no_NUL k (hp.mem_iff.1 hk)
  have h1 := find_keyword_from_spec s ks hks
  have h2 := find_keyword_from_spec s keywords keywords_literal_no_NUL
  unfold find_keyword
  cases e1 : find_keyword_from s ks with
  | none =>
    rw [e1] at h1
    cases e2 : find_keyword_from s keywords with
    | none => rfl
    | some k2 =>
      rw [e2] at h2
      obtain ⟨i, hi, he, -⟩ := h2
      exact absurd he (h1 k2 (hp.mem_iff.2 (List.getElem?_mem hi)))
  | some k1 =>
    rw [e1] at h1
    obtain ⟨i, hi, he, -⟩ := h1
    have hm1 : k1 ∈ keywords := hp.mem_iff.1 (List.getElem?_mem hi)
    cases e2 : find_keyword_from s keywords with
    | none =>
      rw [e2] at h2
      exact absurd he (h2 k1 hm1)
    | some k2 =>
      rw [e2] at h2
      obtain ⟨j, hj, he2, -⟩ := h2
      rw [keywords_literal_inj hm1 (List.getElem?_mem hj) (he.trans he2.symm)]

/-- C20: the spellings of `keywords` are pairwise distinct: two entries with the
same spelling stand at the same index, so at most one entry is spelled as a
given string, and `find_keyword` returns the same result on every reordering
of the table. -/
theorem keywords_spellings_distinct :
    (keywords.map keyword.literal).Nodup ∧
    (∀ (i j : Nat) (ki kj : keyword), keywords[i]? = some ki → keywords[j]? = some kj →
      ki.literal = kj.literal → i = j) ∧
    (∀ (s : List Char) (k1 k2 : keyword), k1 ∈ keywords → k2 ∈ keywords →
      k1.literal = cstr s → k2.literal = cstr s → k1 = k2) ∧
    (∀ (ks : List keyword) (s : List Char), ks.Perm keywords →
      find_keyword_from s ks = find_keyword s) := by
  refine ⟨keywords_nodup, ?_, ?_, fun ks s hp => find_keyword_from_perm ks hp s⟩
  · intro i j ki kj hi hj h
    have hi1 : (keywords.map keyword.literal)[i]? = some ki.literal := by
      rw [List.getElem?_map, hi]
      rfl
    have hj1 : (keywords.map keyword.literal)[j]? = some ki.literal := by
      rw [List.getElem?_map, hj, h]
      rfl
    obtain ⟨hil, hie⟩ := List.getElem?_eq_some.1 hi1
    obtain ⟨hjl, hje⟩ := List.getElem?_eq_some.1 hj1
    exact (List.Nodup.getElem_inj_iff keywords_nodup).1 (hie.trans hje.symm)
  · intro s k1 k2 h1 h2 e1 e2
    exact keywords_literal_inj h1 h2 (e1.trans e2.symm)

/-! ## Advancing after the end of the input -/

/-- The lexer after `k + 1` calls of `read_ch`, when `nextpos` is a 16-bit value:
the positions are counted modulo `2^16`, and the current character is the one
at the position, the sentinel when the position is not below the length. -/
theorem read_ch_n_succ (k : Nat) (lex : lexer) (hn : lex.nextpos < 65536) :
    (read_ch_n (k + 1) lex).input = lex.input ∧
    (read_ch_n (k + 1) lex).paren_balance = lex.paren_balance ∧
    (read_ch_n (k + 1) lex).pos = (lex.nextpos + k) % 65536 ∧
    (read_ch_n (k + 1) lex).nextpos = (lex.nextpos + k + 1) % 65536 ∧
    (read_ch_n (k + 1) lex).ch =
      (if (lex.nextpos + k) % 65536 ≥ strlen lex.input then NUL
       else lex.input.getD ((lex.nextpos + k) % 65536) NUL) := by
  induction k with
  | zero =>
    have e : lex.nextpos % 65536 = lex.nextpos := Nat.mod_eq_of_lt hn
    simp only [Nat.add_zero, e]
    exact ⟨rfl, rfl, rfl, rfl, rfl⟩
  | succ k ih =>
    obtain ⟨h1, h2, h3, h4, h5⟩ := ih
    have e : read_ch_n (k + 1 + 1) lex = read_ch (read_ch_n (k + 1) lex) := rfl
    rw [e]
    refine ⟨h1, h2, ?_, ?_, ?_⟩
    · show (read_ch_n (k + 1) lex).nextpos = _
      rw [h4]
      rfl
    · show ((read_ch_n (k + 1) lex).nextpos + 1) % 65536 = _
      rw [h4]
      omega
    · show (if (read_ch_n (k + 1) lex).nextpos ≥ strlen (read_ch_n (k + 1) lex).input then NUL
        else (read_ch_n (k + 1) lex).input.getD (read_ch_n (k + 1) lex).nextpos NUL) = _
      rw [h4, h1]
      rfl

/-- C11, as stated, fails on the input `a`: the first `read_ch` sets the current
character to the sentinel, and after 65535 more calls the 16-bit `nextpos` has
wrapped around to 0 and the current character is `a` again. -/
theorem read_ch_wraps_to_input_start :
    (read_ch (new_lexer "a".toList 0)).ch = NUL ∧
    (new_lexer "a".toList 0).nextpos ≥ strlen (new_lexer "a".toList 0).input ∧
    (read_ch_n 65534 (read_ch (new_lexer "a".toList 0))).nextpos = 0 ∧
    (read_ch_n 65535 (read_ch (new_lexer "a".toList 0))).ch = 'a' := by
  have hn : (read_ch (new_lexer "a".toList 0)).nextpos < 65536 := by decide
  obtain ⟨-, -, -, h4, -⟩ := read_ch_n_succ 65533 (read_ch (new_lexer "a".toList 0)) hn
  obtain ⟨-, -, -, -, h5⟩ := read_ch_n_succ 65534 (read_ch (new_lexer "a".toList 0)) hn
  refine ⟨by decide, by decide, ?_, ?_⟩
  · rw [h4]
    decide
  · rw [h5]
    decide

theorem getD_zero_ne_NUL (input : List Char) (h : 0 < strlen input) :
    input.getD 0 NUL ≠ NUL := by
  cases input with
  | nil => simp [strlen, cstr_nil] at h
  | cons c t =>
    by_cases hc : c = NUL
    · simp [strlen, cstr_cons, hc] at h
    · exact hc

/-- C11, amended: when `read_ch` has set the current character to the sentinel
because `nextpos`, a 16-bit value `p`, was not below the length of the input,
every further sequence of at most `65535 - p` calls of `read_ch` leaves the
current character equal to the sentinel, and so does a sequence of any length
when the input is empty; after `65535 - p` further calls the input is unchanged
and `nextpos` is 0, and the next `read_ch` reads the character at index 0 of a
non-empty input again, which is not the sentinel. -/
theorem read_ch_stays_at_sentinel (lex0 : lexer) (k : Nat)
    (hend : lex0.nextpos ≥ strlen lex0.input) (hp : lex0.nextpos < 65536) :
    (read_ch lex0).ch = NUL ∧
    (k ≤ 65535 - lex0.nextpos → (read_ch_n k (read_ch lex0)).ch = NUL) ∧
    (strlen lex0.input = 0 → (read_ch_n k (read_ch lex0)).ch = NUL) ∧
    (read_ch_n (65535 - lex0.nextpos) (read_ch lex0)).nextpos = 0 ∧
    (read_ch_n (65535 - lex0.nextpos) (read_ch lex0)).input = lex0.input ∧
    (0 < strlen lex0.input →
      (read_ch (read_ch_n (65535 - lex0.nextpos) (read_ch lex0))).ch = lex0.input.getD 0 NUL ∧
      (read_ch (read_ch_n (65535 - lex0.nextpos) (read_ch lex0))).ch ≠ NUL ∧
      (read_ch (read_ch_n (65535 - lex0.nextpos) (read_ch lex0))).pos = 0) := by
  have h0 : (read_ch lex0).ch = NUL := by
    show (if lex0.nextpos ≥ strlen lex0.input then NUL else _) = NUL
    rw [if_pos hend]
  have hk : ∀ j, read_ch_n j (read_ch lex0) = read_ch_n (j + 1) lex0 := by
    intro j
    induction j with
    | zero => rfl
    | succ j ih =>
      show read_ch (read_ch_n j (read_ch lex0)) = read_ch (read_ch_n (j + 1) lex0)
      rw [ih]
  obtain ⟨-, -, -, -, h5⟩ := read_ch_n_succ k lex0 hp
  obtain ⟨g1, -, -, g4, -⟩ := read_ch_n_succ (65535 - lex0.nextpos) lex0 hp
  have e : lex0.nextpos + (65535 - lex0.nextpos) + 1 = 65536 := by omega
  have hnext : (read_ch_n (65535 - lex0.nextpos) (read_ch lex0)).nextpos = 0 := by
    rw [hk, g4, e]
  have hinput : (read_ch_n (65535 - lex0.nextpos) (read_ch lex0)).input = lex0.input := by
    rw [hk, g1]
  refine ⟨h0, fun hle => ?_, fun he => ?_, hnext, hinput, fun hpos => ?_⟩
  · rw [hk, h5, Nat.mod_eq_of_lt (by omega), if_pos (by omega)]
  · rw [hk, h5, he, if_pos (Nat.zero_le _)]
  · have hch : (read_ch (read_ch_n (65535 - lex0.nextpos) (read_ch lex0))).ch
        = lex0.input.getD 0 NUL := by
      show (if (read_ch_n (65535 - lex0.nextpos) (read_ch lex0)).nextpos ≥
            strlen (read_ch_n (65535 - lex0.nextpos) (read_ch lex0)).input then NUL
          else (read_ch_n (65535 - lex0.nextpos) (read_ch lex0)).input.getD
            (read_ch_n (65535 - lex0.nextpos) (read_ch lex0)).nextpos NUL) = _
      rw [hnext, hinput, if_neg (by omega)]
    refine ⟨hch, ?_, hnext⟩
    rw [hch]
    exact getD_zero_ne_NUL _ hpos

/-- C11, amended, at the fresh lexer of `ab`, advanced twice so that the second
`read_ch` sets the sentinel, then a thousand times more; after 65533 further
calls the next one reads `a` again. -/
theorem read_ch_stays_at_sentinel_witness :
    (read_ch (new_lexer "ab".toList 0)).nextpos ≥
      strlen (read_ch (new_lexer "ab".toList 0)).input ∧
    (read_ch (new_lexer "ab".toList 0)).nextpos < 65536 ∧
    (read_ch_n 1000 (read_ch (read_ch (new_lexer "ab".toList 0)))).ch = NUL ∧
    (read_ch (read_ch_n 65533 (read_ch (read_ch (new_lexer "ab".toList 0))))).ch = 'a' :=
  ⟨by decide, by decide,
    (read_ch_stays_at_sentinel (read_ch (new_lexer "ab".toList 0)) 1000
      (by decide) (by decide)).2.1 (by decide),
    ((read_ch_stays_at_sentinel (read_ch (new_lexer "ab".toList 0)) 1000
      (by decide) (by decide)).2.2.2.2.2 (by decide)).1⟩

/-! ## Delimiters and punctuation -/

theorem next_token_opener (lex : lexer) (hc : lex.ch = '<' ∨ lex.ch = '\x7b') :
    next_token lex =
      some ⟨⟨if lex.ch = '<' then SERV_OPEN else SERV_LBRACE, some [lex.ch]⟩,
        read_ch { lex with paren_balance := (lex.paren_balance + 1) % 65536 }, []⟩ := by
  have hs : isspace lex.ch = false := by
    rcases hc with h | h <;> rw [h] <;> decide
  rw [next_token_of_not_space _ hs, switch_open _ hc]

theorem next_token_punct (lex : lexer) (hc : lex.ch = ':' ∨ lex.ch = ',' ∨ lex.ch = '/') :
    next_token lex =
      some ⟨⟨if lex.ch = ':' then SERV_COLON else if lex.ch = ',' then SERV_DELIM else SERV_RESET,
          some [lex.ch]⟩, read_ch lex, []⟩ := by
  have hs : isspace lex.ch = false := by
    rcases hc with h | h | h <;> rw [h] <;> decide
  rw [next_token_of_not_space _ hs, switch_punct _ hc]

/-- C12, as stated, fails for an opener at the largest 16-bit balance: from the
balance 65535 the call on `<` leaves the balance 0, not 65536. -/
theorem opener_at_full_balance_wraps :
    next_token ⟨"<".toList, '<', 0, 1, 65535⟩ =
      some ⟨⟨SERV_OPEN, some "<".toList⟩, ⟨"<".toList, NUL, 1, 2, 0⟩, []⟩ ∧
    (⟨"<".toList, NUL, 1, 2, 0⟩ : lexer).paren_balance ≠
      (⟨"<".toList, '<', 0, 1, 65535⟩ : lexer).paren_balance + 1 := by
  decide

/-- C12, amended: in a lexer whose current character is one of the four
delimiters, `next_token` returns the token of the matching type with the
character as literal and leaves the lexer advanced by one `read_ch`; an opener
makes the balance `(paren_balance + 1) mod 2^16`, which is one more whenever the
balance is below 65535; a closer at a positive balance makes it one less, and a
closer at the balance zero leaves it at zero and prints the position. -/
theorem delimiter_dispatch (lex : lexer)
    (hc : lex.ch = '<' ∨ lex.ch = '>' ∨ lex.ch = '\x7b' ∨ lex.ch = '\x7d') :
    ∃ r, next_token lex = some r ∧
      r.tok = ⟨if lex.ch = '<' then SERV_OPEN else if lex.ch = '>' then SERV_CLOSE
        else if lex.ch = '\x7b' then SERV_LBRACE else SERV_RBRACE, some [lex.ch]⟩ ∧
      r.lex = { read_ch lex with paren_balance := r.lex.paren_balance } ∧
      r.lex.pos = lex.nextpos ∧ r.lex.nextpos = (lex.nextpos + 1) % 65536 ∧
      (lex.ch = '<' ∨ lex.ch = '\x7b' →
        r.lex.paren_balance = (lex.paren_balance + 1) % 65536 ∧ r.out = [] ∧
        (lex.paren_balance < 65535 → r.lex.paren_balance = lex.paren_balance + 1)) ∧
      (lex.ch = '>' ∨ lex.ch = '\x7d' → 0 < lex.paren_balance →
        r.lex.paren_balance + 1 = lex.paren_balance ∧ r.out = []) ∧
      (lex.ch = '>' ∨ lex.ch = '\x7d' → lex.paren_balance = 0 →
        r.lex.paren_balance = 0 ∧ r.out = [lex.pos]) := by
  have ho : (lex.ch = '<' ∨ lex.ch = '\x7b') ∨ (lex.ch = '>' ∨ lex.ch = '\x7d') := by
    rcases hc with h | h | h | h
    · exact Or.inl (Or.inl h)
    · exact Or.inr (Or.inl h)
    · exact Or.inl (Or.inr h)
    · exact Or.inr (Or.inr h)
  rcases ho with h | h
  · refine ⟨_, next_token_opener lex h, ?_, rfl, rfl, rfl, ?_, ?_, ?_⟩
    · rcases h with h | h <;> simp +decide [h]
    · intro _
      refine ⟨rfl, rfl, fun hb => ?_⟩
      show (lex.paren_balance + 1) % 65536 = _
      exact Nat.mod_eq_of_lt (by omega)
    · intro h2
      exfalso
      rcases h with h | h <;> rcases h2 with h2 | h2 <;> rw [h] at h2 <;> revert h2 <;> decide
    · intro h2
      exfalso
      rcases h with h | h <;> rcases h2 with h2 | h2 <;> rw [h] at h2 <;> revert h2 <;> decide
  · refine ⟨_, next_token_closer lex h, ?_, rfl, rfl, rfl, ?_, ?_, ?_⟩
    · rcases h with h | h <;> simp +decide [h]
    · intro h2
      exfalso
      rcases h with h | h <;> rcases h2 with h2 | h2 <;> rw [h] at h2 <;> revert h2 <;> decide
    · intro _ hb
      refine ⟨?_, ?_⟩
      · show lex.paren_balance - 1 + 1 = lex.paren_balance
        omega
      · show (if lex.paren_balance = 0 then [lex.pos] else []) = []
        rw [if_neg (by omega)]
    · intro _ hb
      refine ⟨?_, ?_⟩
      · show lex.paren_balance - 1 = 0
        omega
      · show (if lex.paren_balance = 0 then [lex.pos] else []) = [lex.pos]
        rw [if_pos hb]

/-- C12, amended, at a lexer that stands on the closing brace of its input with a
balance of two. -/
theorem delimiter_dispatch_witness :
    ∃ r, next_token ⟨"\x7b\x7b\x7d".toList, '\x7d', 2, 3, 2⟩ = some r ∧
      r.tok = ⟨SERV_RBRACE, some "\x7d".toList⟩ ∧ r.lex.paren_balance = 1 ∧
      r.lex.pos = 3 ∧ r.lex.nextpos = 4 := by
  obtain ⟨r, h1, h2, -, h4, h5, -, h7, -⟩ :=
    delimiter_dispatch ⟨"\x7b\x7b\x7d".toList, '\x7d', 2, 3, 2⟩ (by decide)
  refine ⟨r, h1, ?_, ?_, h4, h5⟩
  · rw [h2]
    decide
  · have := (h7 (by decide) (by decide)).1
    have e : (⟨"\x7b\x7b\x7d".toList, '\x7d', 2, 3, 2⟩ : lexer).paren_balance = 2 := rfl
    omega

/-- On a string that starts with `m` punctuation characters, `k ≤ m` calls of
`next_token` from the fresh lexer lead to the lexer that stands at position
`k`. -/
theorem reachable_punct_prefix (s : List Char) (junk m : Nat) (hs : NUL ∉ s)
    (hm : m ≤ 65535)
    (hp : ∀ i < m, s.getD i NUL = ':' ∨ s.getD i NUL = ',' ∨ s.getD i NUL = '/')
    (k : Nat) (hk : k ≤ m) :
    reachable s junk ⟨s, s.getD k NUL, k, (k + 1) % 65536, junk % 65536⟩ := by
  induction k with
  | zero =>
    have e : new_lexer s junk = ⟨s, s.getD 0 NUL, 0, (0 + 1) % 65536, junk % 65536⟩ := by
      have h1 := (new_lexer_at_cursor s junk).ch_eq
      rw [cstr_of_not_mem hs] at h1
      show (⟨cstr s, (new_lexer s junk).ch, 0, 1, junk % 65536⟩ : lexer) = _
      rw [cstr_of_not_mem hs, h1]
      rfl
    rw [← e]
    exact reachable.init
  | succ k ih =>
    have ih1 := ih (by omega)
    have hc := hp k (by omega)
    have hn := next_token_punct ⟨s, s.getD k NUL, k, (k + 1) % 65536, junk % 65536⟩ hc
    have hr := reachable.token _ _ ih1 hn
    have e : (k + 1) % 65536 = k + 1 := Nat.mod_eq_of_lt (by omega)
    have e2 : read_ch ⟨s, s.getD k NUL, k, (k + 1) % 65536, junk % 65536⟩ =
        ⟨s, s.getD (k + 1) NUL, k + 1, (k + 1 + 1) % 65536, junk % 65536⟩ := by
      show (⟨s, if (k + 1) % 65536 ≥ strlen s then NUL else s.getD ((k + 1) % 65536) NUL,
        (k + 1) % 65536, ((k + 1) % 65536 + 1) % 65536, junk % 65536⟩ : lexer) = _
      rw [e, strlen_of_not_mem hs]
      split_ifs with hge
      · rw [List.getD_eq_default _ _ hge]
      · rfl
    rw [← e2]
    exact hr

theorem replicate_no_NUL (n : Nat) (c : Char) (hc : c ≠ NUL) : NUL ∉ List.replicate n c := by
  intro h
  exact hc (List.eq_of_mem_replicate h).symm

theorem getD_replicate_lt (n i : Nat) (c : Char) (h : i < n) :
    (List.replicate n c).getD i NUL = c := by
  rw [List.getD_eq_getElem _ _ (by simpa using h)]
  simp

/-- C13, as stated, fails at position 65534 of a string of 65535 colons, a lexer
that 65534 calls of `next_token` reach from the fresh one: the call returns the
colon token and `nextpos`, which was 65535, becomes 0. -/
theorem punctuation_at_last_position_wraps :
    reachable (List.replicate 65535 ':') 0 ⟨List.replicate 65535 ':', ':', 65534, 65535, 0⟩ ∧
    ∃ r, next_token ⟨List.replicate 65535 ':', ':', 65534, 65535, 0⟩ = some r ∧
      r.tok = ⟨SERV_COLON, some ":".toList⟩ ∧ r.lex.pos = 65535 ∧ r.lex.nextpos = 0 ∧
      r.lex.nextpos ≠ 65535 + 1 := by
  constructor
  · have h := reachable_punct_prefix (List.replicate 65535 ':') 0 65534
      (replicate_no_NUL _ _ (by decide)) (by decide)
      (fun i hi => Or.inl (getD_replicate_lt _ _ _ (by omega))) 65534 (le_refl _)
    rw [getD_replicate_lt _ _ _ (by decide)] at h
    exact h
  · exact ⟨_, next_token_punct ⟨List.replicate 65535 ':', ':', 65534, 65535, 0⟩ (Or.inl rfl),
      rfl, rfl, rfl, by decide⟩

/-- C13, amended: in a lexer whose current character is `:`, `,` or `/`,
`next_token` returns the colon, delimiter or reset token with that character as
literal, prints nothing and leaves the lexer advanced by one `read_ch`: the
position becomes `nextpos`, `nextpos` becomes `(nextpos + 1) mod 2^16`, the
current character becomes the input character at the new position or the
sentinel, and the balance and the input are unchanged; when `nextpos` is
`pos + 1` and below 65535, both counters increase by one. -/
theorem punctuation_dispatch (lex : lexer)
    (hc : lex.ch = ':' ∨ lex.ch = ',' ∨ lex.ch = '/') :
    ∃ r, next_token lex = some r ∧
      r.tok = ⟨if lex.ch = ':' then SERV_COLON else if lex.ch = ',' then SERV_DELIM
        else SERV_RESET, some [lex.ch]⟩ ∧
      r.out = [] ∧ r.lex.input = lex.input ∧ r.lex.paren_balance = lex.paren_balance ∧
      r.lex.pos = lex.nextpos ∧ r.lex.nextpos = (lex.nextpos + 1) % 65536 ∧
      r.lex.ch = (if lex.nextpos ≥ strlen lex.input then NUL
        else lex.input.getD lex.nextpos NUL) ∧
      (lex.nextpos = lex.pos + 1 → lex.nextpos < 65535 →
        r.lex.pos = lex.pos + 1 ∧ r.lex.nextpos = lex.nextpos + 1) := by
  refine ⟨_, next_token_punct lex hc, rfl, rfl, rfl, rfl, rfl, rfl, rfl, fun h1 h2 => ⟨h1, ?_⟩⟩
  show (lex.nextpos + 1) % 65536 = lex.nextpos + 1
  exact Nat.mod_eq_of_lt (by omega)

/-- C13, amended, at a lexer that stands on the comma of `up,down`. -/
theorem punctuation_dispatch_witness :
    ∃ r, next_token ⟨"up,down".toList, ',', 2, 3, 1⟩ = some r ∧
      r.tok = ⟨SERV_DELIM, some ",".toList⟩ ∧ r.lex = ⟨"up,down".toList, 'd', 3, 4, 1⟩ := by
  obtain ⟨r, h1, h2, -, h4, h5, h6, h7, h8, -⟩ :=
    punctuation_dispatch ⟨"up,down".toList, ',', 2, 3, 1⟩ (by decide)
  refine ⟨r, h1, ?_, ?_⟩
  · rw [h2]
    decide
  · cases r with
    | mk tok lex out =>
      cases lex with
      | mk input ch pos nextpos bal =>
        simp only at h4 h5 h6 h7 h8
        rw [h4, h5, h6, h7, h8]
        rfl

/-! ## What holds in every reachable lexer -/

/-- A property of the lexer that `read_ch` keeps and that does not depend on the
balance is kept by `next_token`. -/
theorem next_token_keeps (P : lexer → Prop) (hread : ∀ l, P l → P (read_ch l))
    (hbal : ∀ (l : lexer) (b : Nat), P l → P { l with paren_balance := b })
    {lex : lexer} {r : step} (h : P lex) (hr : next_token lex = some r) : P r.lex := by
  have key : ∀ l : lexer, P l → next_token_switch l = some r → P r.lex := by
    intro l hl hsw
    rcases next_token_switch_cases hsw with ⟨-, -, -, e, -⟩ | ⟨-, e, -⟩ | ⟨-, e, -⟩ | ⟨-, -, e, -⟩
    · rw [e]
      exact hread _ (hbal l _ hl)
    · rw [e]
      exact hl
    · rw [e]
      exact handle_ident_loop_keeps P (fun l1 h1 _ => hread l1 h1) _ _ _ hl
    · rw [e]
      exact hl
  unfold next_token at hr
  split_ifs at hr with hsp
  · exact key _ (hread _ h) hr
  · exact key _ h hr

/-- In every reachable lexer the stored input is the string given, the position
is a 16-bit value, `nextpos` is its 16-bit successor, and the current character
is the character of the input at the position, the sentinel from the end on. -/
theorem reachable_cursor (input : List Char) (junk : Nat) (lex : lexer)
    (h : reachable input junk lex) :
    lex.input = cstr input ∧ lex.pos < 65536 ∧ lex.nextpos = (lex.pos + 1) % 65536 ∧
      lex.ch = (cstr input).getD lex.pos NUL := by
  have hread : ∀ l : lexer,
      (l.input = cstr input ∧ l.pos < 65536 ∧ l.nextpos = (l.pos + 1) % 65536 ∧
        l.ch = (cstr input).getD l.pos NUL) →
      ((read_ch l).input = cstr input ∧ (read_ch l).pos < 65536 ∧
        (read_ch l).nextpos = ((read_ch l).pos + 1) % 65536 ∧
        (read_ch l).ch = (cstr input).getD (read_ch l).pos NUL) := by
    rintro l ⟨h1, -, h3, -⟩
    refine ⟨h1, ?_, rfl, ?_⟩
    · show l.nextpos < 65536
      rw [h3]
      exact Nat.mod_lt _ (by decide)
    · show (if l.nextpos ≥ strlen l.input then NUL else l.input.getD l.nextpos NUL) =
        (cstr input).getD l.nextpos NUL
      rw [h1, strlen_of_not_mem (not_mem_cstr input)]
      split_ifs with hge
      · rw [List.getD_eq_default _ _ hge]
      · rfl
  induction h with
  | init =>
    exact ⟨rfl, by show 0 < 65536; decide, rfl, (new_lexer_at_cursor input junk).ch_eq⟩
  | read l _ ih => exact hread l ih
  | token l r _ hr ih =>
    exact next_token_keeps
      (fun l => l.input = cstr input ∧ l.pos < 65536 ∧ l.nextpos = (l.pos + 1) % 65536 ∧
        l.ch = (cstr input).getD l.pos NUL)
      hread (fun _ _ hl => hl) ih hr

/-- C17, as stated, fails on a string of 65535 commas: 65535 calls of `next_token`
from the fresh lexer reach the end of the input with the position 65535 and
`nextpos` wrapped around to 0. -/
theorem cursor_order_fails_at_wrap :
    reachable (List.replicate 65535 ',') 0 ⟨List.replicate 65535 ',', NUL, 65535, 0, 0⟩ ∧
    ¬ ((⟨List.replicate 65535 ',', NUL, 65535, 0, 0⟩ : lexer).pos <
      (⟨List.replicate 65535 ',', NUL, 65535, 0, 0⟩ : lexer).nextpos) := by
  refine ⟨?_, by decide⟩
  have h := reachable_punct_prefix (List.replicate 65535 ',') 0 65535
    (replicate_no_NUL _ _ (by decide)) (le_refl _)
    (fun i hi => Or.inr (Or.inl (getD_replicate_lt _ _ _ hi))) 65535 (le_refl _)
  rw [List.getD_eq_default _ _ (le_of_eq (List.length_replicate _ _))] at h
  exact h

/-- C17, amended: in every lexer reachable from `new_lexer input` by calls of
`read_ch` and `next_token`, `nextpos` is `(pos + 1) mod 2^16`: it is `pos + 1`,
so that `pos < nextpos`, whenever `pos` is below 65535, and it is 0 when `pos`
is 65535; at creation `pos` is 0 and `nextpos` is 1. -/
theorem cursor_order (input : List Char) (junk : Nat) (lex : lexer)
    (h : reachable input junk lex) :
    lex.nextpos = (lex.pos + 1) % 65536 ∧ lex.pos ≤ 65535 ∧
    (lex.pos < 65535 → lex.nextpos = lex.pos + 1 ∧ lex.pos < lex.nextpos) ∧
    (lex.pos = 65535 → lex.nextpos = 0) ∧
    (new_lexer input junk).pos = 0 ∧ (new_lexer input junk).nextpos = 1 := by
  obtain ⟨-, h2, h3, -⟩ := reachable_cursor input junk lex h
  refine ⟨h3, by omega, fun hlt => ?_, fun he => ?_, rfl, rfl⟩
  · have e : (lex.pos + 1) % 65536 = lex.pos + 1 := Nat.mod_eq_of_lt (by omega)
    rw [h3, e]
    exact ⟨rfl, Nat.lt_succ_self _⟩
  · rw [h3, he]

/-- C17, amended, at the lexer that one `next_token` and one `read_ch` reach on
the input `<up>`. -/
theorem cursor_order_witness :
    reachable "<up>".toList 0 ⟨"<up>".toList, 'p', 2, 3, 1⟩ ∧
    (⟨"<up>".toList, 'p', 2, 3, 1⟩ : lexer).pos <
      (⟨"<up>".toList, 'p', 2, 3, 1⟩ : lexer).nextpos := by
  have hr : reachable "<up>".toList 0 ⟨"<up>".toList, 'p', 2, 3, 1⟩ := by
    have h1 : next_token (new_lexer "<up>".toList 0) =
        some ⟨⟨SERV_OPEN, some "<".toList⟩, ⟨"<up>".toList, 'u', 1, 2, 1⟩, []⟩ := by decide
    have h2 := reachable.read _ (reachable.token _ _ reachable.init h1)
    have e : read_ch ⟨"<up>".toList, 'u', 1, 2, 1⟩ = ⟨"<up>".toList, 'p', 2, 3, 1⟩ := by decide
    rw [← e]
    exact h2
  exact ⟨hr, ((cursor_order "<up>".toList 0 _ hr).2.2.1 (by decide)).2⟩

/-- C18, as stated, fails on a string of 65535 slashes: 65535 calls of
`next_token` from the fresh lexer reach a lexer whose current character is the
sentinel while `nextpos`, wrapped around to 0, is not greater than the length. -/
theorem sentinel_fails_at_wrap :
    reachable (List.replicate 65535 '/') 0 ⟨List.replicate 65535 '/', NUL, 65535, 0, 0⟩ ∧
    (⟨List.replicate 65535 '/', NUL, 65535, 0, 0⟩ : lexer).ch = NUL ∧
    ¬ ((⟨List.replicate 65535 '/', NUL, 65535, 0, 0⟩ : lexer).nextpos >
      strlen (List.replicate 65535 '/')) := by
  refine ⟨?_, rfl, ?_⟩
  · have h := reachable_punct_prefix (List.replicate 65535 '/') 0 65535
      (replicate_no_NUL _ _ (by decide)) (le_refl _)
      (fun i hi => Or.inr (Or.inr (getD_replicate_lt _ _ _ hi))) 65535 (le_refl _)
    rw [List.getD_eq_default _ _ (le_of_eq (List.length_replicate _ _))] at h
    exact h
  · rw [strlen_of_not_mem (replicate_no_NUL _ _ (by decide)), List.length_replicate]
    decide

/-- C18, amended: in every lexer reachable from `new_lexer input` by calls of
`read_ch` and `next_token`, the current character is the character of the input
at index `pos` when `pos` is below the length and the sentinel otherwise, and
no character of the input is the sentinel; so the current character is the
sentinel exactly when `pos` is at least the length, which, whenever `pos` is
below 65535, is exactly when `nextpos` is greater than the length. -/
theorem sentinel_invariant (input : List Char) (junk : Nat) (lex : lexer)
    (h : reachable input junk lex) :
    lex.ch = (cstr input).getD lex.pos NUL ∧
    (lex.ch = NUL ↔ strlen input ≤ lex.pos) ∧
    (lex.pos < 65535 → (lex.ch = NUL ↔ lex.nextpos > strlen input)) ∧
    (∀ i < strlen input, (cstr input).getD i NUL ≠ NUL) := by
  obtain ⟨-, h2, h3, h4⟩ := reachable_cursor input junk lex h
  have hs := not_mem_cstr input
  have hget : ∀ i < strlen input, (cstr input).getD i NUL ≠ NUL := by
    intro i hi e
    apply hs
    rw [← e, List.getD_eq_getElem _ _ hi]
    exact List.getElem_mem _
  have hiff : lex.ch = NUL ↔ strlen input ≤ lex.pos := by
    constructor
    · intro e
      by_contra hn
      exact hget lex.pos (by omega) (h4 ▸ e)
    · intro hle
      rw [h4, List.getD_eq_default _ _ hle]
  refine ⟨h4, hiff, fun hlt => ?_, hget⟩
  have e : lex.nextpos = lex.pos + 1 := by
    rw [h3]
    exact Nat.mod_eq_of_lt (by omega)
  rw [hiff, e]
  omega

/-- C18, amended, at the lexer that two calls of `read_ch` reach on the input
`up`: the last character was read by the first call, the second one set the
sentinel. -/
theorem sentinel_invariant_witness :
    reachable "up".toList 0 (read_ch (read_ch (new_lexer "up".toList 0))) ∧
    (read_ch (new_lexer "up".toList 0)).ch = 'p' ∧
    (read_ch (read_ch (new_lexer "up".toList 0))).ch = NUL ∧
    (read_ch (read_ch (new_lexer "up".toList 0))).nextpos > strlen "up".toList := by
  have hr : reachable "up".toList 0 (read_ch (read_ch (new_lexer "up".toList 0))) :=
    reachable.read _ (reachable.read _ reachable.init)
  obtain ⟨-, h2, h3, -⟩ := sentinel_invariant "up".toList 0 _ hr
  have hch : (read_ch (read_ch (new_lexer "up".toList 0))).ch = NUL := h2.2 (by decide)
  exact ⟨hr, by decide, hch, (h3 (by decide)).1 hch⟩

/-! ## The bound of the identifier scan -/

theorem take_takeWhile (p : Char → Bool) (l : List Char) (m : Nat) :
    (l.takeWhile p).take m = l.take (min m (l.takeWhile p).length) := by
  induction l generalizing m with
  | nil => simp
  | cons a l ih =>
    by_cases ha : p a = true
    · rw [List.takeWhile_cons_of_pos ha]
      cases m with
      | zero => simp
      | succ m =>
        rw [List.take_succ_cons, List.length_cons, Nat.succ_min_succ, List.take_succ_cons, ih]
    · rw [List.takeWhile_cons_of_neg ha]
      simp

theorem takeWhile_drop (p : Char → Bool) (l : List Char) (k : Nat)
    (hk : k ≤ (l.takeWhile p).length) :
    (l.drop k).takeWhile p = (l.takeWhile p).drop k := by
  induction l generalizing k with
  | nil => simp
  | cons a l ih =>
    cases k with
    | zero => rfl
    | succ k =>
      by_cases ha : p a = true
      · rw [List.takeWhile_cons_of_pos ha] at hk ⊢
        rw [List.drop_succ_cons, List.drop_succ_cons]
        exact ih k (by simpa using hk)
      · rw [List.takeWhile_cons_of_neg ha] at hk
        simp at hk

theorem takeWhile_head {p : Char → Bool} {s : List Char} {q : Nat}
    (h : 0 < ((s.drop q).takeWhile p).length) : p (s.getD q NUL) = true := by
  cases hd : s.drop q with
  | nil =>
    rw [hd] at h
    simp at h
  | cons c t =>
    have hq : q < s.length := by
      by_contra hn
      rw [List.drop_eq_nil_of_le (by omega)] at hd
      cases hd
    have hc : s[q] = c := by
      have := List.drop_eq_getElem_cons hq
      rw [hd] at this
      exact (List.cons.inj this).1.symm
    rw [List.getD_eq_getElem _ _ hq, hc]
    by_contra hp
    rw [hd, List.takeWhile_cons_of_neg hp] at h
    simp at h

/-- The loop of `handle_ident` collects the letters that stand at the cursor,
at most `room` of them, and leaves the cursor after them, provided that the
position stays below `2^16` over the letters collected. -/
theorem handle_ident_loop_scan_run {s : List Char} (hs : NUL ∉ s) (room : Nat) (lex : lexer)
    (ident : List Char) (h : at_cursor s lex)
    (hp : lex.pos + (((s.drop lex.pos).takeWhile isalpha).take room).length ≤ 65535) :
    (handle_ident_loop room lex ident).2 =
      ident ++ ((s.drop lex.pos).takeWhile isalpha).take room ∧
    (handle_ident_loop room lex ident).1.pos =
      lex.pos + (((s.drop lex.pos).takeWhile isalpha).take room).length ∧
    at_cursor s (handle_ident_loop room lex ident).1 := by
  induction room generalizing lex ident with
  | zero => simp [handle_ident_loop, h]
  | succ room ih =>
    by_cases ha : isalpha lex.ch = true
    · have hn := (isalpha_not_delim ha).1
      have hlt := at_cursor_pos_lt h hn
      have hch : lex.ch = s[lex.pos] := by
        rw [h.ch_eq, List.getD_eq_getElem _ _ hlt]
      have hd : s.drop lex.pos = s[lex.pos] :: s.drop (lex.pos + 1) :=
        List.drop_eq_getElem_cons hlt
      have ha1 : isalpha s[lex.pos] = true := by rw [← hch]; exact ha
      rw [hd, List.takeWhile_cons_of_pos ha1, List.take_succ_cons, List.length_cons] at hp
      obtain ⟨g1, g2⟩ := read_ch_cursor hs h hn (by omega)
      obtain ⟨k1, k2, k3⟩ := ih (read_ch lex) (ident ++ [lex.ch]) g1 (by rw [g2]; omega)
      simp only [handle_ident_loop, ha, if_true]
      rw [hd, List.takeWhile_cons_of_pos ha1, List.take_succ_cons, k1, k2, g2, ← hch]
      refine ⟨by simp, ?_, k3⟩
      simp only [List.length_cons]
      omega
    · have e : (s.drop lex.pos).takeWhile isalpha = [] := by
        by_cases hlt : lex.pos < s.length
        · have hch : lex.ch = s[lex.pos] := by
            rw [h.ch_eq, List.getD_eq_getElem _ _ hlt]
          rw [List.drop_eq_getElem_cons hlt, List.takeWhile_cons_of_neg]
          rw [← hch]
          exact ha
        · rw [List.drop_eq_nil_of_le (by omega)]
          rfl
      simp [handle_ident_loop, ha, e, h]

theorem handle_ident_eq (lex : lexer) :
    handle_ident lex =
      (find_keyword ((handle_ident_loop (kwsize - 1) lex []).2 ++ [NUL])).map
        (fun k => (⟨k.type, some k.literal⟩, (handle_ident_loop (kwsize - 1) lex []).1)) := by
  unfold handle_ident
  simp only []
  cases hf : find_keyword ((handle_ident_loop (kwsize - 1) lex []).2 ++ [NUL]) with
  | none => rfl
  | some k =>
    have hk := (find_keyword_mem hf).1
    have e : strdup k.literal = k.literal := cstr_of_not_mem (keywords_literal_no_NUL k hk)
    simp only [new_token, e, Option.map]

/-- C16, amended: in a lexer that stands at a position of its input where a
maximal run of `n ≥ 1` letters starts, and whose position stays within 16 bits
over the first `min n 31` letters, the scan of `handle_ident` collects exactly
the first `min n 31` characters of the run and advances the cursor by `min n 31`
characters, `handle_ident` looks up exactly what was collected, and when
`n > 31` the remaining `n - 31` letters are left at the cursor. -/
theorem handle_ident_scan_bounded (s : List Char) (lex : lexer) (n : Nat) (hs : NUL ∉ s)
    (hcur : at_cursor s lex) (hn : ((s.drop lex.pos).takeWhile isalpha).length = n)
    (h1 : 1 ≤ n) (hw : lex.pos + min n 31 ≤ 65535) :
    ∃ lex1 ident, handle_ident_loop (kwsize - 1) lex [] = (lex1, ident) ∧
      ident = (s.drop lex.pos).take (min n 31) ∧
      lex1.pos = lex.pos + min n 31 ∧ lex.pos < lex1.pos ∧ at_cursor s lex1 ∧
      lex1.paren_balance = lex.paren_balance ∧
      handle_ident lex =
        (find_keyword (ident ++ [NUL])).map (fun k => (⟨k.type, some k.literal⟩, lex1)) ∧
      cstr (ident ++ [NUL]) = ident ∧
      (31 < n → ((s.drop lex1.pos).takeWhile isalpha).length = n - 31 ∧
        isalpha lex1.ch = true) := by
  have hk : kwsize - 1 = 31 := rfl
  have hlen : (((s.drop lex.pos).takeWhile isalpha).take 31).length = min n 31 := by
    rw [List.length_take, hn, Nat.min_comm]
  obtain ⟨k1, k2, k3⟩ := handle_ident_loop_scan_run hs 31 lex [] hcur (by rw [hlen]; exact hw)
  have hid : (handle_ident_loop 31 lex []).2 = (s.drop lex.pos).take (min n 31) := by
    rw [k1, List.nil_append, take_takeWhile, hn, Nat.min_comm]
  have hpos : (handle_ident_loop 31 lex []).1.pos = lex.pos + min n 31 := by
    rw [k2, hlen]
  have hbal : (handle_ident_loop 31 lex []).1.paren_balance = lex.paren_balance :=
    handle_ident_loop_keeps (fun l => l.paren_balance = lex.paren_balance)
      (fun l hl _ => hl) 31 lex [] rfl
  have hnul : NUL ∉ (handle_ident_loop 31 lex []).2 := by
    rw [hid]
    exact fun hm => hs (List.mem_of_mem_drop (List.mem_of_mem_take hm))
  refine ⟨(handle_ident_loop 31 lex []).1, (handle_ident_loop 31 lex []).2, rfl, hid, hpos,
    by rw [hpos]; omega, k3, hbal, ?_, cstr_append_NUL hnul [], fun hgt => ?_⟩
  · have := handle_ident_eq lex
    rw [hk] at this
    exact this
  · have hmin : min n 31 = 31 := by omega
    have hrun : ((s.drop (handle_ident_loop 31 lex []).1.pos).takeWhile isalpha).length
        = n - 31 := by
      rw [hpos, hmin, ← List.drop_drop, takeWhile_drop _ _ _ (by omega), List.length_drop, hn]
    refine ⟨hrun, ?_⟩
    rw [k3.ch_eq]
    exact takeWhile_head (by omega)

/-- C16, amended, at the fresh lexer of a run of 33 letters followed by `>`. -/
theorem handle_ident_scan_bounded_witness :
    ∃ lex1 ident,
      handle_ident_loop (kwsize - 1) (new_lexer (List.replicate 33 'x' ++ ['>']) 0) [] =
        (lex1, ident) ∧
      ident = List.replicate 31 'x' ∧ lex1.pos = 31 ∧ lex1.ch = 'x' ∧
      (((List.replicate 33 'x' ++ ['>']).drop lex1.pos).takeWhile isalpha).length = 2 := by
  obtain ⟨lex1, ident, h1, h2, h3, -, h4, -, -, -, h8⟩ :=
    handle_ident_scan_bounded (List.replicate 33 'x' ++ ['>'])
      (new_lexer (List.replicate 33 'x' ++ ['>']) 0) 33 (by decide)
      (new_lexer_at_cursor (List.replicate 33 'x' ++ ['>']) 0) (by decide) (by decide)
      (by decide)
  refine ⟨lex1, ident, h1, ?_, h3, ?_, (h8 (by decide)).1⟩
  · rw [h2]
    decide
  · have e := h4.ch_eq
    rw [h3] at e
    rw [e]
    decide

theorem wrap_input_no_NUL : NUL ∉ wrap_input := by
  intro h
  rcases List.mem_append.1 h with h | h
  · exact replicate_no_NUL _ _ (by decide) h
  · exact replicate_no_NUL _ _ (by decide) h

theorem wrap_input_length : wrap_input.length = 65600 := by
  rw [wrap_input, List.length_append, List.length_replicate, List.length_replicate]

theorem wrap_input_comma (i : Nat) (h : i < 65520) : wrap_input.getD i NUL = ',' := by
  unfold wrap_input
  rw [List.getD_append _ _ _ _ (by rw [List.length_replicate]; exact h),
    getD_replicate_lt _ _ _ h]

theorem wrap_input_letter (i : Nat) (h1 : 65520 ≤ i) (h2 : i < 65600) :
    wrap_input.getD i NUL = 'b' := by
  unfold wrap_input
  rw [List.getD_append_right _ _ _ _ (by rw [List.length_replicate]; exact h1),
    List.length_replicate, getD_replicate_lt _ _ _ (by omega)]

theorem wrap_input_step (p : Nat) (h1 : 65520 ≤ p) (h2 : p < 65535) (room : Nat)
    (ident : List Char) :
    handle_ident_loop (room + 1) ⟨wrap_input, 'b', p, (p + 1) % 65536, 0⟩ ident =
      handle_ident_loop room ⟨wrap_input, 'b', p + 1, (p + 1 + 1) % 65536, 0⟩
        (ident ++ ['b']) := by
  have ha : isalpha 'b' = true := by decide
  have e : (p + 1) % 65536 = p + 1 := Nat.mod_eq_of_lt (by omega)
  have er : read_ch ⟨wrap_input, 'b', p, (p + 1) % 65536, 0⟩ =
      ⟨wrap_input, 'b', p + 1, (p + 1 + 1) % 65536, 0⟩ := by
    show (⟨wrap_input, if (p + 1) % 65536 ≥ strlen wrap_input then NUL
        else wrap_input.getD ((p + 1) % 65536) NUL,
      (p + 1) % 65536, ((p + 1) % 65536 + 1) % 65536, 0⟩ : lexer) = _
    rw [e, strlen_of_not_mem wrap_input_no_NUL, wrap_input_length, if_neg (by omega),
      wrap_input_letter _ (by omega) (by omega)]
  simp only [handle_ident_loop, ha, if_true, er]

theorem wrap_input_steps (j : Nat) (hj : j ≤ 15) (room : Nat) (ident : List Char) :
    handle_ident_loop (room + j)
        ⟨wrap_input, 'b', 65535 - j, (65535 - j + 1) % 65536, 0⟩ ident =
      handle_ident_loop room ⟨wrap_input, 'b', 65535, (65535 + 1) % 65536, 0⟩
        (ident ++ List.replicate j 'b') := by
  induction j generalizing ident with
  | zero => simp
  | succ j ih =>
    have e1 : room + (j + 1) = room + j + 1 := rfl
    have e2 : 65535 - (j + 1) + 1 = 65535 - j := by omega
    rw [e1, wrap_input_step _ (by omega) (by omega), e2, ih (by omega)]
    simp [List.replicate_succ]

/-- C16, as stated, fails at position 65520 of a string of 65520 commas followed by
80 letters, a lexer that 65520 calls of `next_token` reach from the fresh one: a
run of 80 letters starts at the cursor, but the scan of `handle_ident` collects
16 letters, not 31, because after index 65535 the 16-bit `nextpos` is 0 and the
character read is the comma at index 0, where the cursor is left. -/
theorem scan_across_wrap_is_short :
    reachable wrap_input 0 ⟨wrap_input, 'b', 65520, 65521, 0⟩ ∧
    at_cursor wrap_input ⟨wrap_input, 'b', 65520, 65521, 0⟩ ∧
    (wrap_input.drop 65520).takeWhile isalpha = List.replicate 80 'b' ∧
    handle_ident_loop (kwsize - 1) ⟨wrap_input, 'b', 65520, 65521, 0⟩ [] =
      (⟨wrap_input, ',', 0, 1, 0⟩, List.replicate 16 'b') := by
  refine ⟨?_, ⟨rfl, ?_, ?_, by decide⟩, ?_, ?_⟩
  · have h := reachable_punct_prefix wrap_input 0 65520 wrap_input_no_NUL (by decide)
      (fun i hi => Or.inr (Or.inl (wrap_input_comma i hi))) 65520 (le_refl _)
    rw [wrap_input_letter _ (le_refl _) (by decide)] at h
    exact h
  · show 65520 ≤ wrap_input.length
    rw [wrap_input_length]
    decide
  · show 'b' = wrap_input.getD 65520 NUL
    rw [wrap_input_letter _ (le_refl _) (by decide)]
  · have e : wrap_input.drop 65520 = List.replicate 80 'b' := by
      unfold wrap_input
      rw [List.drop_append_of_le_length (le_of_eq (List.length_replicate _ _).symm),
        List.drop_eq_nil_of_le (le_of_eq (List.length_replicate _ _)), List.nil_append]
    rw [e, List.takeWhile_eq_self_iff.2]
    intro c hc
    rw [List.eq_of_mem_replicate hc]
    decide
  · have h := wrap_input_steps 15 (le_refl _) 16 []
    have er : read_ch ⟨wrap_input, 'b', 65535, (65535 + 1) % 65536, 0⟩ =
        ⟨wrap_input, ',', 0, 1, 0⟩ := by
      show (⟨wrap_input, if (65535 + 1) % 65536 ≥ strlen wrap_input then NUL
          else wrap_input.getD ((65535 + 1) % 65536) NUL,
        (65535 + 1) % 65536, ((65535 + 1) % 65536 + 1) % 65536, 0⟩ : lexer) = _
      have e0 : (65535 + 1) % 65536 = 0 := by decide
      rw [e0, strlen_of_not_mem wrap_input_no_NUL, wrap_input_length, if_neg (by decide),
        wrap_input_comma 0 (by decide)]
    have hfin : handle_ident_loop 16 ⟨wrap_input, 'b', 65535, (65535 + 1) % 65536, 0⟩
        ([] ++ List.replicate 15 'b') = (⟨wrap_input, ',', 0, 1, 0⟩, List.replicate 16 'b') := by
      have ha : isalpha 'b' = true := by decide
      have hc : isalpha ',' = false := by decide
      show handle_ident_loop (15 + 1) _ _ = _
      simp only [handle_ident_loop, ha, if_true, er, hc]
      exact Prod.ext rfl (by decide)
    rw [hfin] at h
    exact h

/-! ## Runs of `next_token` alone on inputs shorter than 65535 characters -/

theorem nth_call_at_cursor {s : List Char} {b0 : Nat} (hs : NUL ∉ s) (hlen : s.length ≤ 65535)
    (n : Nat) (lex : lexer) (r : step) (h : at_cursor s lex) (ht : tracks b0 s lex)
    (hr : nth_call n lex = some r) : at_cursor s r.lex := by
  induction n generalizing lex with
  | zero => exact (next_token_inv hs hlen h ht hr).1
  | succ n ih =>
    simp only [nth_call] at hr
    cases hn : next_token lex with
    | none =>
      rw [hn] at hr
      cases hr
    | some r1 =>
      rw [hn] at hr
      obtain ⟨k1, k2, -⟩ := next_token_inv hs hlen h ht hn
      exact ih r1.lex k1 k2 hr

/-- When the input has fewer than 65535 characters, every lexer that calls of
`next_token` alone leave has `nextpos = pos + 1`, so `pos < nextpos`, and its
current character is the sentinel exactly when `nextpos` is greater than the
length of the input. -/
theorem token_runs_keep_order (input : List Char) (junk n : Nat) (r : step)
    (hlen : strlen input < 65535) (hr : nth_call n (new_lexer input junk) = some r) :
    r.lex.nextpos = r.lex.pos + 1 ∧ r.lex.pos < r.lex.nextpos ∧
    (r.lex.ch = NUL ↔ r.lex.nextpos > strlen input) := by
  have hs := not_mem_cstr input
  have hc := nth_call_at_cursor hs (Nat.le_of_lt hlen) n _ r (new_lexer_at_cursor input junk)
    (new_lexer_tracks input junk) hr
  have hle : r.lex.pos ≤ strlen input := hc.pos_le
  have e : r.lex.nextpos = r.lex.pos + 1 := by
    rw [hc.next_eq]
    exact Nat.mod_eq_of_lt (by omega)
  refine ⟨e, by omega, ?_⟩
  constructor
  · intro hn
    have := at_cursor_end hs hc hn
    show strlen input < r.lex.nextpos
    unfold strlen
    omega
  · intro hgt
    rw [hc.ch_eq, List.getD_eq_default]
    show strlen input ≤ r.lex.pos
    omega

end Sterfmt
